import Mathlib

/-!
Verification of the gitBahn commit-synthesis engine.

Rust strings are modelled as `List Char` (named `Str`); a Rust `String`
holding newline-separated text (such as a hunk's accumulated `content`,
which the source only ever consumes through `.lines()`) is modelled by its
list of lines (`List Str`).  Machine integers are modelled as `Nat`/`Int`;
`f64` values produced by the random generator are modelled as exact
rationals with the `as i64` conversion modelled as truncation toward zero.
Fallible operations (array indexing that can panic, `Vec::remove` out of
bounds) are modelled with `Option`.
-/

namespace GitBahn

/-- Rust `&str` / `String`, modelled as a list of characters. -/
abbrev Str := List Char

/-- Rust `char::is_whitespace` (ASCII fragment). -/
def isWs (c : Char) : Bool := c.isWhitespace

/-- Rust `str::starts_with`. -/
def strStarts (p s : Str) : Bool := p.isPrefixOf s

/-- Rust `str::ends_with`. -/
def strEnds (p s : Str) : Bool := p.reverse.isPrefixOf s.reverse

/-- Rust `str::trim_start`. -/
def trimStartWs (s : Str) : Str := s.dropWhile isWs

/-- Rust `str::trim`. -/
def trimStr (s : Str) : Str := ((s.dropWhile isWs).reverse.dropWhile isWs).reverse

/-- `line.len() - line.trim_start().len()` (character count; the sources only
indent with ASCII spaces, where byte and char counts agree). -/
def indentOf (s : Str) : ℕ := s.length - (s.dropWhile isWs).length

/-- Rust `char::to_lowercase` (ASCII fragment, as used on file names). -/
def toLowerChar (c : Char) : Char :=
  if 'A' ≤ c ∧ c ≤ 'Z' then Char.ofNat (c.toNat + 32) else c

/-- Rust `str::to_lowercase`. -/
def toLowerStr (s : Str) : Str := s.map toLowerChar

/-- Rust `str::split` with a `char`-predicate pattern: keeps empty pieces,
always returns at least one piece. -/
def splitP (p : Char → Bool) : Str → List Str
  | [] => [[]]
  | c :: cs =>
    if p c then [] :: splitP p cs
    else
      match splitP p cs with
      | [] => [[c]]
      | h :: t => (c :: h) :: t

/-- Rust `str::split(c)` for a single character pattern. -/
def splitChar (c : Char) (s : Str) : List Str := splitP (· = c) s

/-- Rust `str::split_whitespace`: whitespace-separated words, no empties. -/
def splitWs (s : Str) : List Str := (splitP isWs s).filter (· ≠ [])

/-- Rust `str::contains(c)` for a character pattern. -/
def containsChar (c : Char) (s : Str) : Bool := s.contains c

/-- Rust `str::contains(pat)` for a string pattern. -/
def containsSeq (pat s : Str) : Bool := decide (pat <:+: s)

/-- Helper for `splitSeq`: the pattern is `p0 :: pr` (never empty).  The
string shrinks by at least one character per step, so structural recursion
on a fuel initialized to the string's length reaches every input; the fuel-0
fallback is unreachable. -/
def splitSeqGo (p0 : Char) (pr : Str) : ℕ → Str → Str → List Str
  | 0, s, acc => [acc.reverse ++ s]
  | fuel + 1, s, acc =>
    match s with
    | [] => [acc.reverse]
    | c :: cs =>
      if strStarts (p0 :: pr) (c :: cs) then
        acc.reverse :: splitSeqGo p0 pr fuel ((c :: cs).drop (p0 :: pr).length) []
      else
        splitSeqGo p0 pr fuel cs (c :: acc)

/-- Rust `str::split(pat)` for a string pattern (the sources only use
non-empty patterns; the empty pattern degenerates to the whole string). -/
def splitSeq (pat : Str) (s : Str) : List Str :=
  match pat with
  | [] => [s]
  | p0 :: pr => splitSeqGo p0 pr s.length s []

/-- Helper for `trimStartMatches`: the pattern is `p0 :: pr`.  Fuel-based
structural recursion as in `splitSeqGo`; the fuel-0 fallback is unreachable
for fuel at least the string's length. -/
def trimStartSeqGo (p0 : Char) (pr : Str) : ℕ → Str → Str
  | 0, s => s
  | fuel + 1, s =>
    if strStarts (p0 :: pr) s then
      trimStartSeqGo p0 pr fuel (s.drop (p0 :: pr).length)
    else s

/-- Rust `str::trim_start_matches(pat)` for a string pattern. -/
def trimStartMatches (pat : Str) (s : Str) : Str :=
  match pat with
  | [] => s
  | p0 :: pr => trimStartSeqGo p0 pr s.length s

/-- Rust `str::trim_start_matches(c)` for a character pattern. -/
def trimStartChar (c : Char) (s : Str) : Str := s.dropWhile (· = c)

/-- Rust `str::trim_end_matches(c)` for a character pattern. -/
def trimEndChar (c : Char) (s : Str) : Str := (s.reverse.dropWhile (· = c)).reverse

/-- Rust `str::trim_matches(p)` for a closure pattern. -/
def trimMatchesP (p : Char → Bool) (s : Str) : Str :=
  ((s.dropWhile p).reverse.dropWhile p).reverse

/-- Rust `str::strip_prefix`-style helper. -/
def stripPre (p s : Str) : Option Str :=
  if strStarts p s then some (s.drop p.length) else none

/-- Decimal digits of a natural number, as characters. -/
def natDigits (n : ℕ) : Str :=
  if h : n < 10 then [Char.ofNat (48 + n)]
  else natDigits (n / 10) ++ [Char.ofNat (48 + n % 10)]
termination_by n
decreasing_by omega

/-- Drop the trailing carriage return, as Rust `str::lines` does. -/
def stripCR (s : Str) : Str := if strEnds ['\r'] s then s.dropLast else s

/-- Rust `str::lines`: split on `'\n'`, dropping one final empty piece
produced by a trailing newline, and stripping a trailing `'\r'`. -/
def rustLines (s : Str) : List Str :=
  if s = [] then []
  else
    let parts := splitChar '\n' s
    let parts := if parts.getLast? = some [] then parts.dropLast else parts
    parts.map stripCR

/-- Rust `u32::from_str`: optional leading `'+'`, then one or more decimal
digits, rejecting values out of `u32` range. -/
def parseU32 (s : Str) : Option ℕ :=
  let t := match s with
    | '+' :: r => r
    | _ => s
  if t ≠ [] ∧ t.all Char.isDigit then
    let v := t.foldl (fun acc c => acc * 10 + (c.toNat - 48)) 0
    if v < 2 ^ 32 then some v else none
  else none

/-!
## DiffParser — `src/core/git.rs`, `parse_diff_into_hunks` and helpers
-/

/-- `DiffHunk` of `src/core/git.rs`.  `content` is the accumulated raw patch
text, modelled by its list of lines (the source appends `line + "\n"` to a
`String` and only reads it back through `.lines()`). -/
structure DiffHunk where
  id : ℕ
  file_path : Str
  is_new_file : Bool
  is_deleted : Bool
  header : Str
  content : List Str
  additions : ℕ
  deletions : ℕ
  context : Str
deriving Repr, DecidableEq, Inhabited

/-- `count_changes` of `src/core/git.rs`: count `+`/`-` prefixed lines of a
hunk's content, excluding `+++`/`---` marker lines. -/
def count_changes (content : List Str) : ℕ × ℕ :=
  content.foldl
    (fun ad l =>
      if strStarts ['+'] l ∧ ¬ strStarts "+++".data l then (ad.1 + 1, ad.2)
      else if strStarts ['-'] l ∧ ¬ strStarts "---".data l then (ad.1, ad.2 + 1)
      else ad)
    (0, 0)

/-- `extract_hunk_context` of `src/core/git.rs`. -/
def extract_hunk_context (header : Str) (content : List Str) : Str :=
  let func_context := trimStr (((splitSeq "@@".data header).get? 2).getD [])
  let added_lines :=
    ((content.filter
        (fun l => strStarts ['+'] l ∧ ¬ strStarts "+++".data l)).take 3).map
      (fun l => trimStr (trimStartChar '+' l))
  let added_lines := added_lines.filter (· ≠ [])
  if func_context ≠ [] then
    func_context ++ ": ".data ++ List.intercalate "; ".data added_lines
  else
    List.intercalate "; ".data added_lines

/-- Mutable locals of the `parse_diff_into_hunks` loop. -/
structure DPState where
  hunks : List DiffHunk
  current_file : Str
  is_new_file : Bool
  is_deleted : Bool
  current_hunk_header : Str
  current_hunk_content : List Str
  hunk_id : ℕ
  in_hunk : Bool
deriving Repr, DecidableEq

def dpInit : DPState :=
  ⟨[], [], false, false, [], [], 0, false⟩

/-- The "save previous hunk if exists" block, repeated three times in the
source (at a `diff --git` line, at an `@@` line, and after the loop). -/
def flushHunk (st : DPState) : DPState :=
  if st.in_hunk ∧ st.current_hunk_content ≠ [] then
    let ad := count_changes st.current_hunk_content
    { st with
      hunks := st.hunks ++
        [⟨st.hunk_id, st.current_file, st.is_new_file, st.is_deleted,
          st.current_hunk_header, st.current_hunk_content, ad.1, ad.2,
          extract_hunk_context st.current_hunk_header st.current_hunk_content⟩],
      hunk_id := st.hunk_id + 1 }
  else st

/-- One iteration of the `parse_diff_into_hunks` line loop. -/
def dpStep (st : DPState) (line : Str) : DPState :=
  if strStarts "diff --git".data line then
    let st := flushHunk st
    let parts := splitChar ' ' line
    let st :=
      if _h : parts.length ≥ 4 then
        { st with current_file := trimStartMatches "b/".data (parts.get ⟨3, by omega⟩) }
      else st
    { st with
      is_new_file := false,
      is_deleted := false,
      in_hunk := false,
      current_hunk_content := [],
      current_hunk_header := [] }
  else if strStarts "new file mode".data line then
    { st with is_new_file := true }
  else if strStarts "deleted file mode".data line then
    { st with is_deleted := true }
  else if strStarts "@@".data line then
    let st := flushHunk st
    { st with
      current_hunk_header := line,
      current_hunk_content := [line],
      in_hunk := true }
  else if st.in_hunk then
    { st with current_hunk_content := st.current_hunk_content ++ [line] }
  else st

/-- `parse_diff_into_hunks` of `src/core/git.rs`. -/
def parse_diff_into_hunks (diff : Str) : List DiffHunk :=
  (flushHunk ((rustLines diff).foldl dpStep dpInit)).hunks

/-- Panic-explicit variant of `dpStep`: the `parts[3]` index is modelled with
`List.get?`, and an out-of-bounds access (a Rust panic) is `none`. -/
def dpStepP (st : DPState) (line : Str) : Option DPState :=
  if strStarts "diff --git".data line then
    let st := flushHunk st
    let parts := splitChar ' ' line
    (if parts.length ≥ 4 then
      (parts.get? 3).map
        (fun p => { st with current_file := trimStartMatches "b/".data p })
    else some st).map
      (fun st =>
        { st with
          is_new_file := false,
          is_deleted := false,
          in_hunk := false,
          current_hunk_content := [],
          current_hunk_header := [] })
  else some (dpStep st line)

/-- Panic-explicit variant of `parse_diff_into_hunks`: `none` models a panic
anywhere during parsing. -/
def parse_diff_into_hunksP (diff : Str) : Option (List DiffHunk) :=
  ((rustLines diff).foldlM dpStepP dpInit).map (fun st => (flushHunk st).hunks)

/-- A `+`/`-` prefixed line that is not a `+++`/`---` marker line. -/
def pmLine (l : Str) : Bool :=
  (strStarts ['+'] l ∧ ¬ strStarts "+++".data l) ∨
  (strStarts ['-'] l ∧ ¬ strStarts "---".data l)

/-- The count the claim describes: all `+`/`-` prefixed non-marker lines of
the whole diff text. -/
def claimPmCount (diff : Str) : ℕ := ((rustLines diff).filter pmLine).length

/-- One line of the in-hunk `+`/`-` count scan: the Boolean tracks whether
the parser is inside a hunk, following the same branch structure as
`dpStep`. -/
def pmScanStep (st : Bool × ℕ) (l : Str) : Bool × ℕ :=
  if strStarts "diff --git".data l then (false, st.2)
  else if strStarts "new file mode".data l then st
  else if strStarts "deleted file mode".data l then st
  else if strStarts "@@".data l then (true, st.2)
  else if st.1 ∧ pmLine l then (st.1, st.2 + 1)
  else st

/-- The `+`/`-` prefixed non-marker lines of the diff that occur inside a
hunk, i.e. are appended to some hunk's content by the parser (after an `@@`
line, with `diff --git` lines leaving hunk state and `new file mode` /
`deleted file mode` lines consumed by their own branches). -/
def pmInHunkCount (diff : Str) : ℕ :=
  ((rustLines diff).foldl pmScanStep (false, 0)).2

/-- Sum of `additions` over a hunk list. -/
def sumAdditions (hs : List DiffHunk) : ℕ := (hs.map (·.additions)).sum

/-- Sum of `deletions` over a hunk list. -/
def sumDeletions (hs : List DiffHunk) : ℕ := (hs.map (·.deletions)).sum

/-- `build_patch_for_hunks` of `src/core/git.rs`: file header lines followed
by the raw content of each selected hunk. -/
def build_patch_for_hunks (file_path : Str) (hunks : List DiffHunk) : List Str :=
  ("diff --git a/".data ++ file_path ++ " b/".data ++ file_path) ::
  ("--- a/".data ++ file_path) ::
  ("+++ b/".data ++ file_path) ::
  (hunks.map (·.content)).flatten

/-!
## FileChunker — `src/core/git.rs`, `parse_single_file_into_chunks`
-/

/-- `ChunkType` of `src/core/git.rs`. -/
inductive ChunkType where
  | Imports
  | Constants
  | ClassDefinition
  | Function
  | FullFile
  | Other
deriving Repr, DecidableEq, Inhabited

/-- `FileChunk` of `src/core/git.rs`. -/
structure FileChunk where
  id : ℕ
  file_path : Str
  start_line : ℕ
  end_line : ℕ
  content : Str
  chunk_type : ChunkType
  description : Str
  line_count : ℕ
  dependencies : List Str
deriving Repr, DecidableEq, Inhabited

/-- `extract_function_name` of `src/core/git.rs`. -/
def extract_function_name (line : Str) : Str :=
  let trimmed := trimStr line
  if strStarts "def ".data trimmed ∨ strStarts "async def ".data trimmed then
    let start := if strStarts "async".data trimmed then "async def ".data.length else "def ".data.length
    trimStr (((splitChar '(' (trimmed.drop start)).head?).getD [])
  else if containsSeq "fn ".data trimmed then
    trimStr ((splitP (fun c => c = '(' ∨ c = '<')
      (((splitSeq "fn ".data trimmed).get? 1).getD [])).head?.getD [])
  else if strStarts "function ".data trimmed then
    trimStr (((splitChar '(' (trimmed.drop "function ".data.length)).head?).getD [])
  else if strStarts "func ".data trimmed then
    let after_func := trimmed.drop "func ".data.length
    if strStarts ['('] after_func then
      trimStr (((splitChar '('
        (trimStr (((splitChar ')' after_func).get? 1).getD []))).head?).getD [])
    else
      trimStr (((splitChar '(' after_func).head?).getD [])
  else []

/-- `extract_dependencies` of `src/core/git.rs`. -/
def extract_dependencies (content : Str) (file_path : Str) : List Str :=
  let ext := ((splitChar '.' file_path).getLast?).getD []
  (rustLines content).foldl
    (fun deps line =>
      let trimmed := trimStr line
      if ext = "py".data then
        if strStarts "from ".data trimmed then
          match stripPre "from ".data trimmed with
          | some rest =>
            let m := ((splitWs rest).head?).getD []
            if m ≠ [] ∧ ¬ strStarts ['.'] m then deps ++ [m] else deps
          | none => deps
        else if strStarts "import ".data trimmed then
          match stripPre "import ".data trimmed with
          | some rest =>
            let m := ((splitP (fun c => c = ',' ∨ c = ' ') rest).head?).getD []
            if m ≠ [] then deps ++ [m] else deps
          | none => deps
        else deps
      else if ext = "rs".data then
        if strStarts "use ".data trimmed then
          match stripPre "use ".data trimmed with
          | some rest =>
            let m := ((splitSeq "::".data (trimEndChar ';' rest)).head?).getD []
            if m ≠ [] ∧ m ≠ "crate".data ∧ m ≠ "self".data ∧ m ≠ "super".data then
              deps ++ [m]
            else deps
          | none => deps
        else deps
      else if ext = "js".data ∨ ext = "ts".data ∨ ext = "jsx".data ∨ ext = "tsx".data then
        if strStarts "import ".data trimmed then
          match (splitSeq " from ".data trimmed).get? 1 with
          | some from_part =>
            let m := trimMatchesP (fun c => c = '"' ∨ c = '\'' ∨ c = ';') from_part
            if m ≠ [] then deps ++ [m] else deps
          | none => deps
        else deps
      else if ext = "go".data then
        if strStarts "import ".data trimmed ∨ strStarts ['"'] trimmed then
          let m := trimMatchesP (fun c => c = '"' ∨ c = ' ' ∨ c = '\t') trimmed
          if m ≠ [] ∧ m ≠ "import".data ∧ m ≠ "(".data then deps ++ [m] else deps
        else deps
      else deps)
    []

/-- `create_chunk` of `src/core/git.rs`.  The caller increments the chunk id
counter (see `sectionPush`). -/
def create_chunk (file_path : Str) (lines : List Str) (start endIdx : ℕ)
    (chunk_type : ChunkType) (cid : ℕ) (class_name file_name : Str) : FileChunk :=
  let content := List.intercalate "\n".data
    ((lines.drop start).take (min endIdx (lines.length - 1) + 1 - start))
  let line_count := endIdx - start + 1
  let description :=
    match chunk_type with
    | .Imports => "Add imports for ".data ++ file_name
    | .Constants => "Add constants for ".data ++ file_name
    | .ClassDefinition =>
      if class_name = [] then "Add class definition in ".data ++ file_name
      else "Add ".data ++ class_name ++ " class structure".data
    | .Function =>
      let func_line := (lines.get? start).getD []
      let func_name := extract_function_name func_line
      if func_name = [] then "Add function in ".data ++ file_name
      else if class_name ≠ [] then
        "Add ".data ++ class_name ++ ".".data ++ func_name ++ " method".data
      else "Add ".data ++ func_name ++ " function".data
    | .FullFile => "Add ".data ++ file_name
    | .Other => "Add code in ".data ++ file_name
  ⟨cid, file_path, start + 1, endIdx + 1, content, chunk_type, description,
    line_count, []⟩

/-- Mutable locals shared by the language scanners (`parse_python_file`,
`parse_rust_file`, `parse_js_file`, `parse_go_file`); each scanner only
uses the fields its source function declares. -/
structure ScanSt where
  chunks : List FileChunk
  cid : ℕ
  sec_start : ℕ
  sec_type : ChunkType
  in_class : Bool
  class_indent : ℕ
  class_name : Str
  brace_depth : ℤ
deriving Repr

def scanInit (cid : ℕ) : ScanSt := ⟨[], cid, 0, .Imports, false, 0, [], 0⟩

/-- `chunks.push(create_chunk(..., current_section_start, i - 1, ...))`,
advancing the chunk id counter. -/
def sectionPush (fp fname : Str) (lines : List Str) (ctype : ChunkType)
    (cname : Str) (i : ℕ) (st : ScanSt) : ScanSt :=
  { st with
    chunks := st.chunks ++
      [create_chunk fp lines st.sec_start (i - 1) ctype st.cid cname fname],
    cid := st.cid + 1 }

/-- One iteration of the `parse_python_file` line loop. -/
def pyStep (fp fname : Str) (lines : List Str) (i : ℕ) (line : Str)
    (st : ScanSt) : ScanSt :=
  let trimmed := trimStr line
  let indent := indentOf line
  let is_import := strStarts "import ".data trimmed ∨ strStarts "from ".data trimmed
  let is_class := strStarts "class ".data trimmed
  let is_function := strStarts "def ".data trimmed ∨ strStarts "async def ".data trimmed
  let is_constant := trimmed ≠ [] ∧ ¬ strStarts ['#'] trimmed ∧ ¬ is_import ∧
    ¬ is_class ∧ ¬ is_function ∧ indent = 0 ∧
    (containsChar '=' trimmed ∨ ((trimmed.head?.map Char.isUpper).getD false))
  if is_class then
    let st1 := if i > st.sec_start then
      sectionPush fp fname lines st.sec_type st.class_name i st else st
    { st1 with
      in_class := true,
      class_indent := indent,
      class_name := ((splitP (fun c => c = '(' ∨ c = ':')
        (trimStartMatches "class ".data trimmed)).head?).getD "Class".data,
      sec_start := i,
      sec_type := .ClassDefinition }
  else if is_function ∧ indent = 0 then
    let st1 := if i > st.sec_start then
      sectionPush fp fname lines st.sec_type st.class_name i st else st
    { st1 with
      in_class := false,
      class_name := [],
      sec_start := i,
      sec_type := .Function }
  else if st.in_class ∧ is_function ∧ indent > st.class_indent then
    if i > st.sec_start + 5 then
      let st1 := sectionPush fp fname lines st.sec_type st.class_name i st
      { st1 with sec_start := i, sec_type := .Function }
    else st
  else if st.sec_type = .Imports ∧ ¬ is_import ∧ trimmed ≠ [] ∧
      ¬ strStarts ['#'] trimmed then
    let st1 := if i > st.sec_start then
      sectionPush fp fname lines .Imports [] i st else st
    { st1 with
      sec_start := i,
      sec_type := if is_constant then .Constants else .Other }
  else st

/-- One iteration of the `parse_rust_file` line loop. -/
def rsStep (fp fname : Str) (lines : List Str) (i : ℕ) (line : Str)
    (st : ScanSt) : ScanSt :=
  let trimmed := trimStr line
  let st := { st with
    brace_depth := st.brace_depth + (trimmed.count '{' : ℤ) - (trimmed.count '}' : ℤ) }
  let is_use := strStarts "use ".data trimmed
  let is_struct := strStarts "pub struct ".data trimmed ∨ strStarts "struct ".data trimmed
  let is_impl := strStarts "impl ".data trimmed
  let is_fn := strStarts "pub fn ".data trimmed ∨ strStarts "fn ".data trimmed ∨
    strStarts "pub async fn ".data trimmed ∨ strStarts "async fn ".data trimmed
  let is_const := strStarts "const ".data trimmed ∨ strStarts "pub const ".data trimmed ∨
    strStarts "static ".data trimmed ∨ strStarts "pub static ".data trimmed
  let st :=
    if (st.brace_depth = 0 ∨ (st.brace_depth = 1 ∧ containsChar '{' trimmed)) ∧
        (is_struct ∨ is_impl ∨ is_fn) then
      let st1 :=
        if i > st.sec_start + 2 then
          { (sectionPush fp fname lines st.sec_type [] i st) with sec_start := i }
        else st
      { st1 with
        sec_type :=
          if is_struct then .ClassDefinition
          else if is_fn then .Function
          else .Other }
    else st
  if st.sec_type = .Imports ∧ ¬ is_use ∧ trimmed ≠ [] ∧
      ¬ strStarts "//".data trimmed ∧ ¬ strStarts "#[".data trimmed then
    let st1 := if i > st.sec_start then
      sectionPush fp fname lines .Imports [] i st else st
    { st1 with
      sec_start := i,
      sec_type := if is_const then .Constants else .Other }
  else st

/-- One iteration of the `parse_js_file` line loop. -/
def jsStep (fp fname : Str) (lines : List Str) (i : ℕ) (line : Str)
    (st : ScanSt) : ScanSt :=
  let trimmed := trimStr line
  let st := { st with
    brace_depth := st.brace_depth + (trimmed.count '{' : ℤ) - (trimmed.count '}' : ℤ) }
  let is_import := strStarts "import ".data trimmed
  let is_class := strStarts "class ".data trimmed ∨ strStarts "export class ".data trimmed
  let is_function := strStarts "function ".data trimmed ∨
    strStarts "export function ".data trimmed ∨
    (strStarts "const ".data trimmed ∧ containsSeq "=>".data trimmed) ∨
    (strStarts "export const ".data trimmed ∧ containsSeq "=>".data trimmed)
  let st :=
    if st.brace_depth = 0 ∧ (is_class ∨ is_function) then
      let st1 :=
        if i > st.sec_start + 2 then
          { (sectionPush fp fname lines st.sec_type [] i st) with sec_start := i }
        else st
      { st1 with sec_type := if is_class then .ClassDefinition else .Function }
    else st
  if st.sec_type = .Imports ∧ ¬ is_import ∧ trimmed ≠ [] ∧
      ¬ strStarts "//".data trimmed ∧ ¬ strStarts "/*".data trimmed then
    let st1 := if i > st.sec_start then
      sectionPush fp fname lines .Imports [] i st else st
    { st1 with sec_start := i, sec_type := .Other }
  else st

/-- One iteration of the `parse_go_file` line loop. -/
def goStep (fp fname : Str) (lines : List Str) (i : ℕ) (line : Str)
    (st : ScanSt) : ScanSt :=
  let trimmed := trimStr line
  let st := { st with
    brace_depth := st.brace_depth + (trimmed.count '{' : ℤ) - (trimmed.count '}' : ℤ) }
  let is_import := strStarts "import ".data trimmed
  let is_package := strStarts "package ".data trimmed
  let is_type := strStarts "type ".data trimmed
  let is_func := strStarts "func ".data trimmed
  let is_const := strStarts "const ".data trimmed ∨ strStarts "var ".data trimmed
  let st :=
    if st.brace_depth = 0 ∧ (is_type ∨ is_func) then
      let st1 :=
        if i > st.sec_start + 2 then
          { (sectionPush fp fname lines st.sec_type [] i st) with sec_start := i }
        else st
      { st1 with sec_type := if is_type then .ClassDefinition else .Function }
    else st
  if st.sec_type = .Imports ∧ ¬ is_import ∧ ¬ is_package ∧ trimmed ≠ [] ∧
      ¬ strStarts "//".data trimmed ∧ trimmed ≠ ")".data then
    let st1 := if i > st.sec_start then
      sectionPush fp fname lines .Imports [] i st else st
    { st1 with
      sec_start := i,
      sec_type := if is_const then .Constants else .Other }
  else st

/-- The shared `for (i, line) in lines.iter().enumerate()` loop. -/
def scanGo (step : ℕ → Str → ScanSt → ScanSt) : List Str → ℕ → ScanSt → ScanSt
  | [], _, st => st
  | l :: rest, i, st => scanGo step rest (i + 1) (step i l st)

/-- `chunks[0].chunk_type = ChunkType::FullFile` on the head of the list. -/
def setHeadFullFile : List FileChunk → List FileChunk
  | [] => []
  | c :: r => { c with chunk_type := .FullFile } :: r

/-- `chunks[0].dependencies = deps` on the head of the list. -/
def setHeadDeps (deps : List Str) : List FileChunk → List FileChunk
  | [] => []
  | c :: r => { c with dependencies := deps } :: r

/-- The shared tail of every language scanner: push the last section,
normalize a single chunk to `FullFile`, store dependencies on the first
chunk.  `cnameLast` is the class-name argument the scanner passes to the
final `create_chunk` (`current_class_name` for Python, `""` otherwise). -/
def scanFinish (fp fname : Str) (lines : List Str) (full_content : Str)
    (useClassName : Bool) (st : ScanSt) : List FileChunk × ℕ :=
  let st :=
    if st.sec_start < lines.length then
      sectionPush fp fname lines st.sec_type
        (if useClassName then st.class_name else []) lines.length st
    else st
  let chunks := st.chunks
  let chunks := if chunks.length = 1 then setHeadFullFile chunks else chunks
  let chunks :=
    if chunks ≠ [] then setHeadDeps (extract_dependencies full_content fp) chunks
    else chunks
  (chunks, st.cid)

/-- `parse_python_file` of `src/core/git.rs`. -/
def parse_python_file (fp : Str) (lines : List Str) (full_content : Str)
    (cid : ℕ) : List FileChunk × ℕ :=
  let fname := ((splitChar '/' fp).getLast?).getD fp
  let st := scanGo (pyStep fp fname lines) lines 0 (scanInit cid)
  scanFinish fp fname lines full_content true st

/-- `parse_rust_file` of `src/core/git.rs`. -/
def parse_rust_file (fp : Str) (lines : List Str) (full_content : Str)
    (cid : ℕ) : List FileChunk × ℕ :=
  let fname := ((splitChar '/' fp).getLast?).getD fp
  let st := scanGo (rsStep fp fname lines) lines 0 (scanInit cid)
  scanFinish fp fname lines full_content false st

/-- `parse_js_file` of `src/core/git.rs`. -/
def parse_js_file (fp : Str) (lines : List Str) (full_content : Str)
    (cid : ℕ) : List FileChunk × ℕ :=
  let fname := ((splitChar '/' fp).getLast?).getD fp
  let st := scanGo (jsStep fp fname lines) lines 0 (scanInit cid)
  scanFinish fp fname lines full_content false st

/-- `parse_go_file` of `src/core/git.rs`. -/
def parse_go_file (fp : Str) (lines : List Str) (full_content : Str)
    (cid : ℕ) : List FileChunk × ℕ :=
  let fname := ((splitChar '/' fp).getLast?).getD fp
  let st := scanGo (goStep fp fname lines) lines 0 (scanInit cid)
  scanFinish fp fname lines full_content false st

/-- The `while start < lines.len()` loop of `parse_generic_file`
(`chunk_size` is the literal 50 of the source). -/
def genLoop (fp fname : Str) (lines : List Str) (start cid : ℕ)
    (acc : List FileChunk) : List FileChunk × ℕ :=
  if h : start < lines.length then
    let endIdx := min (start + 50) lines.length - 1
    let content := List.intercalate "\n".data
      ((lines.drop start).take (endIdx + 1 - start))
    let c : FileChunk :=
      ⟨cid, fp, start + 1, endIdx + 1, content,
        if start = 0 then .FullFile else .Other,
        fname ++ " lines ".data ++ natDigits (start + 1) ++ "-".data ++
          natDigits (endIdx + 1),
        endIdx - start + 1, []⟩
    genLoop fp fname lines (endIdx + 1) (cid + 1) (acc ++ [c])
  else (acc, cid)
termination_by lines.length - start
decreasing_by omega

/-- `parse_generic_file` of `src/core/git.rs`. -/
def parse_generic_file (fp : Str) (lines : List Str) (_full_content : Str)
    (cid : ℕ) : List FileChunk × ℕ :=
  let fname := ((splitChar '/' fp).getLast?).getD fp
  genLoop fp fname lines 0 cid []

/-- `parse_single_file_into_chunks` of `src/core/git.rs`.  Returns the chunk
list and the advanced chunk id counter (the source threads `&mut usize`). -/
def parse_single_file_into_chunks (file_path content : Str) (chunk_id : ℕ) :
    List FileChunk × ℕ :=
  let lines := rustLines content
  let total_lines := lines.length
  if total_lines < 50 then
    ([⟨chunk_id, file_path, 1, total_lines, content, .FullFile,
        "Add ".data ++ (((splitChar '/' file_path).getLast?).getD file_path),
        total_lines, extract_dependencies content file_path⟩],
      chunk_id + 1)
  else
    let ext := ((splitChar '.' file_path).getLast?).getD []
    if ext = "py".data then parse_python_file file_path lines content chunk_id
    else if ext = "rs".data then parse_rust_file file_path lines content chunk_id
    else if ext = "js".data ∨ ext = "ts".data ∨ ext = "jsx".data ∨ ext = "tsx".data then
      parse_js_file file_path lines content chunk_id
    else if ext = "go".data then parse_go_file file_path lines content chunk_id
    else parse_generic_file file_path lines content chunk_id

/-- `cs` covers exactly the 1-based line range `a+1 .. b`, in return order:
the first chunk starts at line `a+1`, consecutive chunks are contiguous
(`next.start_line = prev.end_line + 1`), every chunk is non-degenerate
(`start_line ≤ end_line`, hence `start_line` strictly increases), and the
last chunk ends exactly at line `b`. -/
def coversB : List FileChunk → ℕ → ℕ → Bool
  | [], a, b => a == b
  | c :: rest, a, b =>
    (c.start_line == a + 1) && (decide (a + 1 ≤ c.end_line)) &&
      coversB rest c.end_line b

/-!
## DependencyOrderer — `src/core/git.rs`, `file_priority`
-/

/-- `path.split('/').last().unwrap_or(path).to_lowercase()`. -/
def fpName (path : Str) : Str :=
  toLowerStr (((splitChar '/' path).getLast?).getD path)

/-- `path.split('/').rev().nth(1).unwrap_or("").to_lowercase()`. -/
def fpDir (path : Str) : Str :=
  toLowerStr (((splitChar '/' path).reverse.get? 1).getD [])

/-- `file_priority` of `src/core/git.rs`. -/
def file_priority (path : Str) : ℕ :=
  let name := fpName path
  let dir := fpDir path
  if name = ".gitignore".data ∨ name = ".env.example".data then 1
  else if name = "requirements.txt".data ∨ name = "package.json".data ∨
    name = "cargo.toml".data ∨ name = "go.mod".data then 2
  else if name = "pyproject.toml".data ∨ name = "setup.py".data ∨
    name = "tsconfig.json".data then 3
  else if containsSeq "config".data name then 10
  else if containsSeq "settings".data name then 11
  else if containsSeq "constants".data name then 12
  else if name = "__init__.py".data ∨ name = "mod.rs".data ∨
    name = "index.ts".data ∨ name = "index.js".data then 15
  else if dir = "shared".data ∨ dir = "common".data ∨ dir = "utils".data then 20
  else if containsSeq "utils".data name ∨ containsSeq "helpers".data name then 21
  else if containsSeq "models".data name ∨ containsSeq "types".data name ∨
    containsSeq "schemas".data name then 30
  else if dir = "services".data ∨ containsSeq "service".data name then 40
  else if dir = "core".data then 41
  else if containsSeq "client".data name then 50
  else if dir = "indexers".data ∨ dir = "integrations".data then 51
  else if dir = "routers".data ∨ dir = "routes".data ∨ dir = "handlers".data then 60
  else if containsSeq "router".data name ∨ containsSeq "handler".data name then 61
  else if name = "main.py".data ∨ name = "main.rs".data ∨ name = "main.go".data ∨
    name = "app.py".data then 70
  else if name = "index.ts".data ∨ name = "index.js".data ∨ name = "app.ts".data then 71
  else if dir = "cli".data ∨ containsSeq "cli".data name then 75
  else if strStarts "test_".data name ∨ strEnds "_test.py".data name ∨
    strEnds "_test.go".data name then 80
  else if dir = "tests".data ∨ dir = "test".data then 81
  else if name = "dockerfile".data ∨ name = "docker-compose.yml".data ∨
    name = "docker-compose.yaml".data then 90
  else if dir = ".github".data ∨ containsSeq "ci".data name then 91
  else if name = "readme.md".data ∨ name = "readme.rst".data then 100
  else if strEnds ".md".data name then 101
  else 50

/-- A path matches some pattern of the `file_priority` lookup table (the
disjunction of every branch condition). -/
def matchesKnown (path : Str) : Bool :=
  let name := fpName path
  let dir := fpDir path
  (name == ".gitignore".data || name == ".env.example".data) ||
  (name == "requirements.txt".data || name == "package.json".data ||
    name == "cargo.toml".data || name == "go.mod".data) ||
  (name == "pyproject.toml".data || name == "setup.py".data ||
    name == "tsconfig.json".data) ||
  containsSeq "config".data name ||
  containsSeq "settings".data name ||
  containsSeq "constants".data name ||
  (name == "__init__.py".data || name == "mod.rs".data ||
    name == "index.ts".data || name == "index.js".data) ||
  (dir == "shared".data || dir == "common".data || dir == "utils".data) ||
  (containsSeq "utils".data name || containsSeq "helpers".data name) ||
  (containsSeq "models".data name || containsSeq "types".data name ||
    containsSeq "schemas".data name) ||
  (dir == "services".data || containsSeq "service".data name) ||
  dir == "core".data ||
  containsSeq "client".data name ||
  (dir == "indexers".data || dir == "integrations".data) ||
  (dir == "routers".data || dir == "routes".data || dir == "handlers".data) ||
  (containsSeq "router".data name || containsSeq "handler".data name) ||
  (name == "main.py".data || name == "main.rs".data || name == "main.go".data ||
    name == "app.py".data) ||
  (name == "index.ts".data || name == "index.js".data || name == "app.ts".data) ||
  (dir == "cli".data || containsSeq "cli".data name) ||
  (strStarts "test_".data name || strEnds "_test.py".data name ||
    strEnds "_test.go".data name) ||
  (dir == "tests".data || dir == "test".data) ||
  (name == "dockerfile".data || name == "docker-compose.yml".data ||
    name == "docker-compose.yaml".data) ||
  (dir == ".github".data || containsSeq "ci".data name) ||
  (name == "readme.md".data || name == "readme.rst".data) ||
  strEnds ".md".data name

/-!
## SingleInstanceLock — `src/core/lock.rs`, `LockGuard::acquire`
-/

/-- The error message of a live-holder lock conflict (the concrete PID and
path formatting of the source message is elided). -/
def lockConflictMsg : Str := "Another bahn instance is already running".data

/-- `writeln!(file, "{}", process::id())`: the new lock file's content. -/
def lockFileContent (pid : ℕ) : Str := natDigits pid ++ ['\n']

/-- `LockGuard::acquire` of `src/core/lock.rs`, with the filesystem and the
process-liveness probe passed explicitly: `existing` is the lock file's
content when the lock file exists (a failed `read_to_string` is the empty
string, per `unwrap_or_default`), `running` is `is_process_running`, and
`myPid` is `process::id()`.  The result carries the lock file's content
after the call (the fresh lock file on success). -/
def LockGuard_acquire (existing : Option Str) (running : ℕ → Bool)
    (myPid : ℕ) : Except Str Str :=
  match existing with
  | some content =>
    match (rustLines content).head? with
    | some pid_str =>
      match parseU32 (trimStr pid_str) with
      | some pid =>
        if running pid then Except.error lockConflictMsg
        else Except.ok (lockFileContent myPid)
      | none => Except.ok (lockFileContent myPid)
    | none => Except.ok (lockFileContent myPid)
  | none => Except.ok (lockFileContent myPid)

/-!
## RetryingExternalClient — `src/core/ai.rs`, `AiClient::send_message`
-/

/-- The observable outcome of one attempted HTTP call: a transport error, or
a response with a status code.  For a success status the body is the payload
text the source extracts from the parsed response. -/
inductive ApiOutcome where
  | netErr (e : Str)
  | httpResp (status : ℕ) (body : Str)

/-- The `last_error` values the source formats into strings: a network error
or a retryable API error with its status. -/
inductive ApiErr where
  | network (e : Str)
  | api (status : ℕ) (body : Str)
deriving DecidableEq, Repr

/-- How `send_message` fails: a non-retryable status fails immediately; an
exhausted retry budget fails with the attempt count and last observed error. -/
inductive SendFailure where
  | fatalStatus (status : ℕ) (body : Str)
  | exhausted (attempts : ℕ) (last : Option ApiErr)
deriving DecidableEq, Repr

def MAX_RETRIES : ℕ := 3
def BASE_DELAY_MS : ℕ := 1000
def MAX_DELAY_MS : ℕ := 30000

/-- The `for attempt in 0..=MAX_RETRIES` loop of `send_message`.  `outcomes`
maps the attempt number to that attempt's outcome; the returned list records
every backoff sleep performed, in order, in milliseconds. -/
def sendLoop (outcomes : ℕ → ApiOutcome) (attempt delay_ms : ℕ)
    (last_error : Option ApiErr) (sleeps : List ℕ) :
    Except SendFailure Str × List ℕ :=
  if h : attempt ≤ MAX_RETRIES then
    let sleeps := if attempt > 0 then sleeps ++ [delay_ms] else sleeps
    let delay_ms := if attempt > 0 then min (delay_ms * 2) MAX_DELAY_MS else delay_ms
    match outcomes attempt with
    | .netErr e =>
      sendLoop outcomes (attempt + 1) delay_ms (some (.network e)) sleeps
    | .httpResp status body =>
      if 200 ≤ status ∧ status < 300 then (Except.ok body, sleeps)
      else if status = 429 ∨ 500 ≤ status then
        sendLoop outcomes (attempt + 1) delay_ms (some (.api status body)) sleeps
      else (Except.error (.fatalStatus status body), sleeps)
  else (Except.error (.exhausted (MAX_RETRIES + 1) last_error), sleeps)
termination_by MAX_RETRIES + 1 - attempt
decreasing_by all_goals omega

/-- `AiClient::send_message` of `src/core/ai.rs`, over the outcome of each
attempt. -/
def send_message (outcomes : ℕ → ApiOutcome) : Except SendFailure Str × List ℕ :=
  sendLoop outcomes 0 BASE_DELAY_MS none []

/-- An outcome the retry loop retries on: a network error, HTTP 429, or an
HTTP status of at least 500. -/
def retryable : ApiOutcome → Prop
  | .netErr _ => True
  | .httpResp status _ => status = 429 ∨ 500 ≤ status

/-- The `last_error` value recorded for a retryable outcome. -/
def errOf : ApiOutcome → ApiErr
  | .netErr e => .network e
  | .httpResp status body => .api status body

/-!
## Merge-to-target — `gitbahn-mcp/src/main.rs`, `merge_groups_to_target`
-/

/-- `SplitGroup` of `gitbahn-mcp/src/main.rs`. -/
structure SplitGroup where
  group_id : ℕ
  files : List Str
  description : Str
  hint : Str
  line_count : ℕ
deriving Repr, DecidableEq, Inhabited

/-- `usize::MAX`. -/
def usizeMax : ℕ := 2 ^ 64 - 1

/-- The `for i in 0..groups.len() - 1` scan for the smallest adjacent pair
(`min_size` starts at `usize::MAX`, `merge_idx` at 0; strict `<` keeps the
first minimal pair). -/
def findMergeIdx (groups : List SplitGroup) : ℕ :=
  ((List.range (groups.length - 1)).foldl
    (fun (acc : ℕ × ℕ) i =>
      let combined := ((groups.get? i).getD default).line_count +
        ((groups.get? (i + 1)).getD default).line_count
      if combined < acc.1 then (combined, i) else acc)
    (usizeMax, 0)).2

/-- The merge of `groups[merge_idx]` with the removed `groups[merge_idx+1]`. -/
def mergePair (a b : SplitGroup) : SplitGroup :=
  { a with
    files := a.files ++ b.files,
    line_count := a.line_count + b.line_count,
    description := a.description ++ " + ".data ++ b.description,
    hint := a.hint ++ ", ".data ++ b.hint }

/-- `groups.remove(idx + 1)` followed by merging into `groups[idx]`;
`none` models the panic of `Vec::remove` when `idx + 1` is out of bounds. -/
def removeMergeAt (groups : List SplitGroup) (idx : ℕ) :
    Option (List SplitGroup) :=
  match groups.get? idx, groups.get? (idx + 1) with
  | some a, some b =>
    some (groups.take idx ++ [mergePair a b] ++ groups.drop (idx + 2))
  | _, _ => none

theorem removeMergeAt_length {groups : List SplitGroup} {idx : ℕ}
    {g2 : List SplitGroup} (h : removeMergeAt groups idx = some g2) :
    g2.length = groups.length - 1 ∧ idx + 1 < groups.length := by
  unfold removeMergeAt at h
  split at h
  next a b ha hb =>
    have hb' : idx + 1 < groups.length := (List.get?_eq_some.mp hb).1
    cases h
    constructor
    · simp only [List.length_append, List.length_take, List.length_drop,
        List.length_cons, List.length_nil]
      omega
    · exact hb'
  next => cases h

/-- `merge_groups_to_target` of `gitbahn-mcp/src/main.rs`; `none` models the
panic of the inner `remove` (reachable when `target = 0`). -/
def merge_groups_to_target (groups : List SplitGroup) (target : ℕ) :
    Option (List SplitGroup) :=
  if groups.length ≤ target then some groups
  else
    match h : removeMergeAt groups (findMergeIdx groups) with
    | none => none
    | some g2 =>
      have : g2.length < groups.length := by
        have := (removeMergeAt_length h).1
        have := (removeMergeAt_length h).2
        omega
      merge_groups_to_target g2 target
termination_by groups.length

/-!
## TimestampSpreader — `src/commands/commit.rs` / `src/commands/auto.rs`,
`generate_spread_timestamps`
-/

/-- The `as i64` conversion of an `f64` value: truncation toward zero. -/
def truncQ (q : ℚ) : ℤ := if 0 ≤ q then ⌊q⌋ else ⌈q⌉

/-- One gap of the timestamp walk:
`(base_interval as f64 * variance) as i64`, floored at 60 seconds, plus the
0–59 second jitter. -/
def tsGap (base : ℤ) (variance : ℚ) (extra : ℕ) : ℤ :=
  max (truncQ ((base : ℚ) * variance)) 60 + (extra : ℤ)

/-- The `for i in 0..count` walk of `generate_spread_timestamps`:
push `current`, then advance `current` by a gap on every iteration but the
last.  `v` and `e` are the successive draws of `rng.gen_range(0.5..1.5)` and
`rng.gen_range(0..60)`. -/
def tsLoop (count : ℕ) (base : ℤ) (v : ℕ → ℚ) (e : ℕ → ℕ) (i : ℕ)
    (current : ℤ) : List ℤ :=
  if h : i < count then
    current ::
      tsLoop count base v e (i + 1)
        (if i < count - 1 then current + tsGap base (v i) (e i) else current)
  else []
termination_by count - i
decreasing_by omega

/-- The rescale step of `generate_spread_timestamps`: if the realized span
exceeds the requested duration, scale every non-first offset by
`total_duration_secs / actual_duration` (an `f64` ratio, truncated back to
seconds with `as i64`). -/
def rescaleTs (start total : ℤ) (ts : List ℤ) : List ℤ :=
  match ts.getLast? with
  | none => ts
  | some last =>
    let actual := last - start
    if actual > total then
      let scale : ℚ := (total : ℚ) / (actual : ℚ)
      ts.enum.map
        (fun p =>
          if p.1 = 0 then start
          else start + truncQ (((p.2 - start : ℤ) : ℚ) * scale))
    else ts

/-- `generate_spread_timestamps` of `src/commands/commit.rs` (the identical
copy lives in `src/commands/auto.rs`).  Timestamps are Unix seconds
(`chrono` arithmetic on whole seconds); the random draws are explicit
streams. -/
def generate_spread_timestamps (count : ℕ) (start total_duration_secs : ℤ)
    (v : ℕ → ℚ) (e : ℕ → ℕ) : List ℤ :=
  if count = 0 then []
  else if count = 1 then [start]
  else
    let base_interval := Int.tdiv total_duration_secs (count : ℤ)
    rescaleTs start total_duration_secs
      (tsLoop count base_interval v e 0 start)

/-- The first line of the lock file, parsed as a PID:
`content.lines().next()` followed by `pid_str.trim().parse::<u32>()`. -/
def lockFilePid (content : Str) : Option ℕ :=
  (rustLines content).head?.bind (fun l => parseU32 (trimStr l))

/-- The witness diff used to instantiate the hunk-content theorems. -/
def witnessDiff : Str :=
  "diff --git a/f b/f\n@@ -1 +1 @@\n+x\n".data

/-!
## Theorems
-/

theorem count_changes_aux :
    ∀ (content : List Str) (p : ℕ × ℕ),
      (content.foldl
        (fun ad l =>
          if strStarts ['+'] l ∧ ¬ strStarts "+++".data l then (ad.1 + 1, ad.2)
          else if strStarts ['-'] l ∧ ¬ strStarts "---".data l then (ad.1, ad.2 + 1)
          else ad) p).1 +
      (content.foldl
        (fun ad l =>
          if strStarts ['+'] l ∧ ¬ strStarts "+++".data l then (ad.1 + 1, ad.2)
          else if strStarts ['-'] l ∧ ¬ strStarts "---".data l then (ad.1, ad.2 + 1)
          else ad) p).2 = p.1 + p.2 + content.countP pmLine := by
  intro content
  induction content with
  | nil => simp
  | cons l t ih =>
    intro p
    simp only [List.foldl_cons, List.countP_cons]
    by_cases h1 : strStarts ['+'] l ∧ ¬ strStarts "+++".data l
    · rw [if_pos h1, ih]
      have : pmLine l = true := by simp [pmLine, h1]
      rw [this]
      simp
      omega
    · rw [if_neg h1]
      by_cases h2 : strStarts ['-'] l ∧ ¬ strStarts "---".data l
      · rw [if_pos h2, ih]
        have : pmLine l = true := by simp [pmLine, h2]
        rw [this]
        simp
        omega
      · rw [if_neg h2, ih]
        have : pmLine l = false := by
          simp only [pmLine, decide_eq_false_iff_not]
          tauto
        rw [this]
        simp

theorem count_changes_total (content : List Str) :
    (count_changes content).1 + (count_changes content).2 =
      content.countP pmLine := by
  have := count_changes_aux content (0, 0)
  simpa [count_changes] using this

theorem flushHunk_in_hunk (st : DPState) :
    (flushHunk st).in_hunk = st.in_hunk ∧
    (flushHunk st).current_hunk_content = st.current_hunk_content ∧
    (flushHunk st).current_hunk_header = st.current_hunk_header := by
  unfold flushHunk
  split_ifs <;> simp

theorem flushHunk_total (st : DPState) :
    sumAdditions (flushHunk st).hunks + sumDeletions (flushHunk st).hunks =
      sumAdditions st.hunks + sumDeletions st.hunks +
        (if st.in_hunk then st.current_hunk_content.countP pmLine else 0) := by
  unfold flushHunk
  split_ifs with h h2 h3
  · have hcc := count_changes_total st.current_hunk_content
    simp only [sumAdditions, sumDeletions, List.map_append, List.sum_append,
      List.map_cons, List.map_nil, List.sum_cons, List.sum_nil]
    omega
  · exact absurd h.1 h2
  · have hc : st.current_hunk_content = [] := by
      by_contra hne
      exact h ⟨h3, hne⟩
    simp [hc]
  · simp

theorem pmLine_atat {l : Str} (h : strStarts "@@".data l = true) :
    pmLine l = false := by
  cases l with
  | nil => simp [strStarts, List.isPrefixOf] at h
  | cons c t =>
    simp only [strStarts, List.isPrefixOf, Bool.and_eq_true, beq_iff_eq] at h
    obtain ⟨hc, _⟩ := h
    subst hc
    simp [pmLine, strStarts, List.isPrefixOf]

theorem dpStep_pm (st : DPState) (l : Str) (m : ℕ)
    (hm : sumAdditions st.hunks + sumDeletions st.hunks +
      (if st.in_hunk then st.current_hunk_content.countP pmLine else 0) = m) :
    (dpStep st l).in_hunk = (pmScanStep (st.in_hunk, m) l).1 ∧
    sumAdditions (dpStep st l).hunks + sumDeletions (dpStep st l).hunks +
      (if (dpStep st l).in_hunk then
        (dpStep st l).current_hunk_content.countP pmLine else 0) =
      (pmScanStep (st.in_hunk, m) l).2 := by
  have ht := flushHunk_total st
  by_cases h1 : strStarts "diff --git".data l
  · by_cases h4 : (splitChar ' ' l).length ≥ 4 <;>
      · constructor
        · simp [dpStep, pmScanStep, h1, h4]
        · simp [dpStep, pmScanStep, h1, h4]
          omega
  · by_cases h2 : strStarts "new file mode".data l
    · constructor
      · simp [dpStep, pmScanStep, h1, h2]
      · simp only [dpStep, pmScanStep, h1, h2]
        simpa using hm
    · by_cases h3 : strStarts "deleted file mode".data l
      · constructor
        · simp [dpStep, pmScanStep, h1, h2, h3]
        · simp only [dpStep, pmScanStep, h1, h2, h3]
          simpa using hm
      · by_cases h5 : strStarts "@@".data l
        · have hpm := pmLine_atat h5
          constructor
          · simp [dpStep, pmScanStep, h1, h2, h3, h5]
          · simp [dpStep, pmScanStep, h1, h2, h3, h5, List.countP_cons, hpm]
            omega
        · by_cases h6 : st.in_hunk = true
          · by_cases h7 : pmLine l = true
            · constructor
              · simp [dpStep, pmScanStep, h1, h2, h3, h5, h6, h7]
              · simp only [h6, if_true] at hm
                simp [dpStep, pmScanStep, h1, h2, h3, h5, h6, h7,
                  List.countP_append, List.countP_cons]
                omega
            · constructor
              · simp [dpStep, pmScanStep, h1, h2, h3, h5, h6, h7]
              · simp only [h6, if_true] at hm
                simp [dpStep, pmScanStep, h1, h2, h3, h5, h6, h7,
                  List.countP_append, List.countP_cons]
                omega
          · have h6' : st.in_hunk = false := by simpa using h6
            constructor
            · simp [dpStep, pmScanStep, h1, h2, h3, h5, h6']
            · simp [h6'] at hm
              simp [dpStep, pmScanStep, h1, h2, h3, h5, h6']
              omega

theorem dp_pm_fold :
    ∀ (ls : List Str) (st : DPState) (m : ℕ),
      sumAdditions st.hunks + sumDeletions st.hunks +
        (if st.in_hunk then st.current_hunk_content.countP pmLine else 0) = m →
      (ls.foldl dpStep st).in_hunk = (ls.foldl pmScanStep (st.in_hunk, m)).1 ∧
      sumAdditions (ls.foldl dpStep st).hunks +
        sumDeletions (ls.foldl dpStep st).hunks +
        (if (ls.foldl dpStep st).in_hunk then
          (ls.foldl dpStep st).current_hunk_content.countP pmLine else 0) =
        (ls.foldl pmScanStep (st.in_hunk, m)).2 := by
  intro ls
  induction ls with
  | nil => intro st m hm; exact ⟨rfl, hm⟩
  | cons l t ih =>
    intro st m hm
    simp only [List.foldl_cons]
    obtain ⟨h1, h2⟩ := dpStep_pm st l m hm
    have := ih (dpStep st l) (pmScanStep (st.in_hunk, m) l).2 h2
    rwa [h1] at this

/-- C4 fails as stated: a `+`/`-` line outside any hunk is counted by the
claim but never enters a hunk's content.  At `D = "+x"` the parser returns
no hunks (sum 0) while the claim's count is 1. -/
theorem C4_counterexample :
    ¬ (sumAdditions (parse_diff_into_hunks ['+', 'x']) +
        sumDeletions (parse_diff_into_hunks ['+', 'x']) =
        claimPmCount ['+', 'x']) := by
  decide

/-- C4 (amended): the sum of `additions` plus `deletions` over all hunks of
`parse_diff_into_hunks D` equals the number of `+`/`-` prefixed non-marker
lines of `D` that occur *inside a hunk* (after an `@@` line of the current
file section); `+`/`-` lines outside any hunk are not counted. -/
theorem C4_sum_changes :
    ∀ diff : Str,
      sumAdditions (parse_diff_into_hunks diff) +
        sumDeletions (parse_diff_into_hunks diff) = pmInHunkCount diff := by
  intro diff
  unfold parse_diff_into_hunks pmInHunkCount
  have h := dp_pm_fold (rustLines diff) dpInit 0
    (by simp [dpInit, sumAdditions, sumDeletions])
  have h0 : dpInit.in_hunk = false := rfl
  rw [h0] at h
  obtain ⟨h1, h2⟩ := h
  rw [flushHunk_total]
  omega

theorem dpStepP_eq (st : DPState) (l : Str) :
    dpStepP st l = some (dpStep st l) := by
  unfold dpStepP dpStep
  by_cases h1 : strStarts "diff --git".data l
  · simp only [h1, if_true]
    by_cases h4 : (splitChar ' ' l).length ≥ 4
    · rw [if_pos h4, dif_pos h4,
        List.get?_eq_get (show 3 < (splitChar ' ' l).length by omega)]
      rfl
    · rw [if_neg h4, dif_neg h4]
      rfl
  · simp only [h1, if_false]
    rfl

theorem foldlM_dpStepP (ls : List Str) (st : DPState) :
    List.foldlM dpStepP st ls = some (List.foldl dpStep st ls) := by
  induction ls generalizing st with
  | nil => rfl
  | cons l t ih =>
    simp only [List.foldlM_cons, dpStepP_eq, Option.bind_some, List.foldl_cons]
    exact ih (dpStep st l)

/-- C8: the diff parser is total and panic-free — the panic-explicit variant
(where the one unguarded-looking indexing, `parts[3]`, is modelled with
`Option`) succeeds on every input string and returns exactly the hunk list
of the total parser. -/
theorem C8_parse_total :
    ∀ diff : Str,
      parse_diff_into_hunksP diff = some (parse_diff_into_hunks diff) := by
  intro diff
  unfold parse_diff_into_hunksP parse_diff_into_hunks
  rw [foldlM_dpStepP]
  rfl

theorem flushHunk_mem {st : DPState} {h : DiffHunk}
    (hm : h ∈ (flushHunk st).hunks) :
    h ∈ st.hunks ∨
      (st.in_hunk = true ∧ st.current_hunk_content ≠ [] ∧
        h.content = st.current_hunk_content ∧
        h.header = st.current_hunk_header) := by
  unfold flushHunk at hm
  split_ifs at hm with hc
  · simp only [List.mem_append, List.mem_singleton] at hm
    rcases hm with hm | hm
    · exact Or.inl hm
    · refine Or.inr ⟨hc.1, hc.2, ?_, ?_⟩ <;> rw [hm]
  · exact Or.inl hm

theorem flushHunk_headOk (st : DPState)
    (h1 : st.in_hunk = true →
      st.current_hunk_content.head? = some st.current_hunk_header)
    (h2 : ∀ h ∈ st.hunks, h.content ≠ [] ∧ h.content.head? = some h.header) :
    ∀ h ∈ (flushHunk st).hunks,
      h.content ≠ [] ∧ h.content.head? = some h.header := by
  intro h hm
  rcases flushHunk_mem hm with hm | ⟨hin, hne, hcnt, hhdr⟩
  · exact h2 h hm
  · refine ⟨by rw [hcnt]; exact hne, ?_⟩
    rw [hcnt, hhdr]
    exact h1 hin

theorem dpStep_headOk (st : DPState) (l : Str)
    (h1 : st.in_hunk = true →
      st.current_hunk_content.head? = some st.current_hunk_header)
    (h2 : ∀ h ∈ st.hunks, h.content ≠ [] ∧ h.content.head? = some h.header) :
    ((dpStep st l).in_hunk = true →
      (dpStep st l).current_hunk_content.head? =
        some (dpStep st l).current_hunk_header) ∧
    (∀ h ∈ (dpStep st l).hunks,
      h.content ≠ [] ∧ h.content.head? = some h.header) := by
  have hflush := flushHunk_headOk st h1 h2
  unfold dpStep
  by_cases hb1 : strStarts "diff --git".data l
  · simp only [hb1, if_true]
    by_cases hb4 : (splitChar ' ' l).length ≥ 4 <;>
      simp only [hb4, dif_pos, dif_neg, not_false_iff] <;>
      exact ⟨by simp, by simpa using hflush⟩
  · by_cases hb2 : strStarts "new file mode".data l
    · simp only [hb1, hb2, if_true, if_false]
      exact ⟨by simpa using h1, by simpa using h2⟩
    · by_cases hb3 : strStarts "deleted file mode".data l
      · simp only [hb1, hb2, hb3, if_true, if_false]
        exact ⟨by simpa using h1, by simpa using h2⟩
      · by_cases hb5 : strStarts "@@".data l
        · simp only [hb1, hb2, hb3, hb5, if_true, if_false]
          exact ⟨by simp, by simpa using hflush⟩
        · by_cases hb6 : st.in_hunk
          · simp only [hb1, hb2, hb3, hb5, hb6, if_true, if_false]
            refine ⟨?_, by simpa using h2⟩
            intro _
            have hh := h1 (by simpa using hb6)
            have hne : st.current_hunk_content ≠ [] := by
              intro hnil
              rw [hnil] at hh
              cases hh
            cases hcc : st.current_hunk_content with
            | nil => exact absurd hcc hne
            | cons c t =>
              rw [hcc] at hh
              simpa using hh
          · simp only [hb1, hb2, hb3, hb5, hb6, if_false]
            exact ⟨h1, h2⟩

theorem dp_headOk_fold :
    ∀ (ls : List Str) (st : DPState),
      (st.in_hunk = true →
        st.current_hunk_content.head? = some st.current_hunk_header) →
      (∀ h ∈ st.hunks, h.content ≠ [] ∧ h.content.head? = some h.header) →
      ((ls.foldl dpStep st).in_hunk = true →
        (ls.foldl dpStep st).current_hunk_content.head? =
          some (ls.foldl dpStep st).current_hunk_header) ∧
      (∀ h ∈ (ls.foldl dpStep st).hunks,
        h.content ≠ [] ∧ h.content.head? = some h.header) := by
  intro ls
  induction ls with
  | nil => intro st h1 h2; exact ⟨h1, h2⟩
  | cons l t ih =>
    intro st h1 h2
    simp only [List.foldl_cons]
    obtain ⟨g1, g2⟩ := dpStep_headOk st l h1 h2
    exact ih (dpStep st l) g1 g2

/-- C10: every hunk returned by `parse_diff_into_hunks` has non-empty
content whose first line is the hunk's `@@` header, and consequently the
patch built by `build_patch_for_hunks` for any selection of such hunks
contains each selected hunk's `@@` header line after the three file-header
lines. -/
theorem C10_hunk_header_first :
    ∀ (diff : Str) (h : DiffHunk), h ∈ parse_diff_into_hunks diff →
      (h.content ≠ [] ∧ h.content.head? = some h.header) ∧
      ∀ (fp : Str) (hs : List DiffHunk), h ∈ hs →
        h.header ∈ (build_patch_for_hunks fp hs).drop 3 := by
  intro diff h hm
  have hfold := dp_headOk_fold (rustLines diff) dpInit
    (by intro hc; cases hc) (by intro h hm; cases hm)
  have hall := flushHunk_headOk _ hfold.1 hfold.2
  have hh := hall h hm
  refine ⟨hh, ?_⟩
  intro fp hs hmem
  unfold build_patch_for_hunks
  show h.header ∈ (hs.map (fun x => x.content)).flatten
  exact List.mem_flatten.mpr
    ⟨h.content, List.mem_map_of_mem _ hmem,
      List.mem_of_mem_head? (by rw [hh.2]; rfl)⟩

theorem C10_hunk_header_first_witness :
    ((((parse_diff_into_hunks witnessDiff).headD default).content ≠ [] ∧
      ((parse_diff_into_hunks witnessDiff).headD default).content.head? =
        some ((parse_diff_into_hunks witnessDiff).headD default).header)) ∧
    ((parse_diff_into_hunks witnessDiff).headD default).header ∈
      (build_patch_for_hunks ['f']
        [(parse_diff_into_hunks witnessDiff).headD default]).drop 3 := by
  have h := C10_hunk_header_first witnessDiff
    ((parse_diff_into_hunks witnessDiff).headD default) (by decide)
  exact ⟨h.1, h.2 ['f'] _ (List.mem_singleton.mpr rfl)⟩

theorem truncQ_mono {q r : ℚ} (h : q ≤ r) : truncQ q ≤ truncQ r := by
  unfold truncQ
  split_ifs with h1 h2 h2
  · exact Int.floor_le_floor h
  · exact absurd (le_trans h1 h) h2
  · calc ⌈q⌉ ≤ 0 := Int.ceil_le.mpr (by push_cast; linarith)
      _ ≤ ⌊r⌋ := Int.floor_nonneg.mpr h2
  · exact Int.ceil_le_ceil h

theorem truncQ_nonneg {q : ℚ} (h : 0 ≤ q) : 0 ≤ truncQ q := by
  unfold truncQ
  rw [if_pos h]
  exact Int.floor_nonneg.mpr h

theorem truncQ_intCast (z : ℤ) : truncQ (z : ℚ) = z := by
  unfold truncQ
  split_ifs with h
  · exact Int.floor_intCast z
  · exact Int.ceil_intCast z

theorem tsGap_ge (base : ℤ) (v : ℚ) (e : ℕ) : 60 ≤ tsGap base v e := by
  unfold tsGap
  have h1 := le_max_right (truncQ ((base : ℚ) * v)) 60
  have h2 : (0 : ℤ) ≤ (e : ℤ) := Int.ofNat_nonneg e
  omega

theorem tsLoop_len (count : ℕ) (base : ℤ) (v : ℕ → ℚ) (e : ℕ → ℕ) :
    ∀ (n i : ℕ) (current : ℤ), count - i = n →
      (tsLoop count base v e i current).length = count - i := by
  intro n
  induction n with
  | zero =>
    intro i current h0
    rw [tsLoop.eq_def, dif_neg (by omega)]
    simp [h0]
  | succ n ih =>
    intro i current h0
    rw [tsLoop.eq_def, dif_pos (by omega)]
    have := ih (i + 1) (if i < count - 1 then current + tsGap base (v i) (e i)
      else current) (by omega)
    simp only [List.length_cons, this]
    omega

theorem tsLoop_head (count : ℕ) (base : ℤ) (v : ℕ → ℚ) (e : ℕ → ℕ)
    (i : ℕ) (current : ℤ) (h : i < count) :
    (tsLoop count base v e i current).head? = some current := by
  rw [tsLoop.eq_def, dif_pos h]
  rfl

theorem tsLoop_chain (count : ℕ) (base : ℤ) (v : ℕ → ℚ) (e : ℕ → ℕ) :
    ∀ (n i : ℕ) (current : ℤ), count - i = n →
      List.Chain' (· ≤ ·) (tsLoop count base v e i current) := by
  intro n
  induction n with
  | zero =>
    intro i current h0
    rw [tsLoop.eq_def, dif_neg (by omega)]
    exact List.chain'_nil
  | succ n ih =>
    intro i current h0
    rw [tsLoop.eq_def, dif_pos (by omega)]
    rw [List.chain'_cons']
    constructor
    · intro b hb
      by_cases hlast : i + 1 < count
      · rw [tsLoop_head count base v e (i + 1) _ hlast] at hb
        simp only [Option.mem_def, Option.some_inj] at hb
        subst hb
        split_ifs with hcnt
        · have := tsGap_ge base (v i) (e i)
          omega
        · exact le_refl current
      · rw [tsLoop.eq_def, dif_neg hlast] at hb
        simp at hb
    · exact ih (i + 1) _ (by omega)

theorem chain_le_head_le {l : List ℤ} {a : ℤ}
    (hc : List.Chain' (· ≤ ·) (a :: l)) : ∀ b ∈ l, a ≤ b := by
  have hp : List.Pairwise (· ≤ ·) (a :: l) :=
    List.chain'_iff_pairwise.mp hc
  exact (List.pairwise_cons.mp hp).1

theorem rescale_enumFrom_chain (start : ℤ) (scale : ℚ) (hscale : 0 ≤ scale) :
    ∀ (l : List ℤ) (k : ℕ), 1 ≤ k → List.Chain' (· ≤ ·) l →
      List.Chain' (· ≤ ·)
        ((List.enumFrom k l).map
          (fun p =>
            if p.1 = 0 then start
            else start + truncQ (((p.2 - start : ℤ) : ℚ) * scale))) := by
  intro l
  induction l with
  | nil => intro k _ _; exact List.chain'_nil
  | cons x t ih =>
    intro k hk hc
    cases t with
    | nil => simp
    | cons y t2 =>
      simp only [List.enumFrom_cons, List.map_cons]
      rw [List.chain'_cons]
      constructor
      · have hxy : x ≤ y := (List.chain'_cons.mp hc).1
        rw [if_neg (by omega), if_neg (by omega)]
        have : truncQ (((x - start : ℤ) : ℚ) * scale) ≤
            truncQ (((y - start : ℤ) : ℚ) * scale) := by
          apply truncQ_mono
          apply mul_le_mul_of_nonneg_right _ hscale
          exact_mod_cast sub_le_sub_right hxy start
        omega
      · have := ih (k + 1) (by omega) (List.chain'_cons.mp hc).2
        simpa using this

theorem rescaleTs_props (start total : ℤ) (ts : List ℤ)
    (hchain : List.Chain' (· ≤ ·) ts)
    (hhead : ts.head? = some start)
    (htotal : 0 ≤ total) :
    List.Chain' (· ≤ ·) (rescaleTs start total ts) ∧
    (rescaleTs start total ts).length = ts.length ∧
    (rescaleTs start total ts).head? = some start := by
  obtain ⟨rest, rfl⟩ : ∃ rest, ts = start :: rest := by
    cases ts with
    | nil => cases hhead
    | cons a t =>
      simp only [List.head?_cons, Option.some_inj] at hhead
      exact ⟨t, by rw [hhead]⟩
  unfold rescaleTs
  cases hlast : (start :: rest).getLast? with
  | none => simp at hlast
  | some last =>
    have hsl : start ≤ last := by
      have hmem := List.mem_of_mem_getLast? hlast
      rcases List.mem_cons.mp hmem with h | h
      · omega
      · exact chain_le_head_le hchain last h
    dsimp only
    split_ifs with hgt
    · have hpos : (0 : ℤ) < last - start := by omega
      have hscale : (0 : ℚ) ≤ (total : ℚ) / ((last - start : ℤ) : ℚ) := by
        apply div_nonneg
        · exact_mod_cast htotal
        · exact_mod_cast le_of_lt hpos
      refine ⟨?_, by simp, by simp⟩
      simp only [List.enum]
      rw [List.enumFrom_cons, List.map_cons]
      rw [List.chain'_cons']
      constructor
      · intro b hb
        cases rest with
        | nil => simp at hb
        | cons y t2 =>
          simp only [List.enumFrom_cons, List.map_cons, List.head?_cons,
            Option.mem_def, Option.some_inj] at hb
          subst hb
          have hy : start ≤ y := chain_le_head_le hchain y (by simp)
          have hnn : (0 : ℤ) ≤ truncQ (((y : ℚ) - (start : ℚ)) *
              ((total : ℚ) / ((last : ℚ) - (start : ℚ)))) := by
            apply truncQ_nonneg
            apply mul_nonneg
            · have hyq : (start : ℚ) ≤ (y : ℚ) := by exact_mod_cast hy
              linarith
            · apply div_nonneg
              · exact_mod_cast htotal
              · have hlq : (start : ℚ) < (last : ℚ) := by
                  exact_mod_cast (show start < last by omega)
                linarith
          norm_num
          omega
      · exact rescale_enumFrom_chain start
          ((total : ℚ) / ((last - start : ℤ) : ℚ)) hscale rest 1 le_rfl
          hchain.tail
    · exact ⟨hchain, rfl, rfl⟩

/-- C2 fails as stated for a negative duration: with 2 commits and a
duration of −100 seconds, the realized 60-second minimum gap always exceeds
the duration, and the rescale step multiplies the positive offsets by a
negative ratio — the returned timestamps decrease. -/
theorem C2_counterexample :
    generate_spread_timestamps 2 0 (-100) (fun _ => 1) (fun _ => 0) =
      [0, -100] ∧
    ¬ List.Chain' (· ≤ ·)
      (generate_spread_timestamps 2 0 (-100) (fun _ => 1) (fun _ => 0)) := by
  have hbase : Int.tdiv (-100 : ℤ) ((2 : ℕ) : ℤ) = -50 := by decide
  have hgap : tsGap (-50) ((fun _ => (1 : ℚ)) 0) ((fun _ => (0 : ℕ)) 0) = 60 := by
    unfold tsGap
    rw [show (((-50 : ℤ) : ℚ) * (1 : ℚ)) = (((-50 : ℤ)) : ℚ) by ring,
      truncQ_intCast]
    norm_num
  have hts : tsLoop 2 (-50) (fun _ => (1 : ℚ)) (fun _ => (0 : ℕ)) 0 0 =
      [0, 60] := by
    rw [tsLoop.eq_def, dif_pos (by norm_num)]
    rw [tsLoop.eq_def, dif_pos (by norm_num)]
    rw [tsLoop.eq_def, dif_neg (by norm_num)]
    norm_num [hgap]
  have heq : generate_spread_timestamps 2 0 (-100) (fun _ => 1) (fun _ => 0) =
      [0, -100] := by
    unfold generate_spread_timestamps
    rw [if_neg (by norm_num), if_neg (by norm_num)]
    dsimp only
    rw [hbase, hts]
    unfold rescaleTs
    norm_num [List.enum, List.enumFrom]
    rw [show ((-100 : ℚ)) = (((-100 : ℤ)) : ℚ) by norm_num, truncQ_intCast]
  refine ⟨heq, ?_⟩
  rw [heq]
  rw [List.chain'_cons]
  intro h
  omega

/-- C2 (amended): for every count, start, *non-negative* duration, and
outcome of the random draws, `generate_spread_timestamps` returns a list of
length `count`, starting at `start`, with non-decreasing elements; count 0
gives the empty list and count 1 gives exactly `[start]`.  For a negative
duration the rescale step reverses the order (see the counterexample). -/
theorem C2_spread_timestamps :
    ∀ (count : ℕ) (start total : ℤ) (v : ℕ → ℚ) (e : ℕ → ℕ),
      0 ≤ total →
      (generate_spread_timestamps count start total v e).length = count ∧
      (1 ≤ count →
        (generate_spread_timestamps count start total v e).head? = some start) ∧
      List.Chain' (· ≤ ·) (generate_spread_timestamps count start total v e) ∧
      (count = 0 → generate_spread_timestamps count start total v e = []) ∧
      (count = 1 → generate_spread_timestamps count start total v e = [start]) := by
  intro count start total v e htotal
  unfold generate_spread_timestamps
  by_cases h0 : count = 0
  · subst h0
    simp
  · by_cases h1 : count = 1
    · subst h1
      simp
    · rw [if_neg h0, if_neg h1]
      dsimp only
      have hcount : 2 ≤ count := by omega
      have hchain := tsLoop_chain count (Int.tdiv total (count : ℤ)) v e
        (count - 0) 0 start rfl
      have hhead := tsLoop_head count (Int.tdiv total (count : ℤ)) v e 0 start
        (by omega)
      have hlen := tsLoop_len count (Int.tdiv total (count : ℤ)) v e
        (count - 0) 0 start rfl
      obtain ⟨hc, hl, hh⟩ := rescaleTs_props start total _ hchain hhead htotal
      refine ⟨by omega, fun _ => hh, hc, fun h => absurd h h0, fun h => absurd h h1⟩

theorem C2_spread_timestamps_witness :
    (generate_spread_timestamps 0 5 7200 (fun _ => 1) (fun _ => 7)).length = 0 ∧
    (generate_spread_timestamps 3 5 7200 (fun _ => 1) (fun _ => 7)).length = 3 ∧
    (generate_spread_timestamps 3 5 7200 (fun _ => 1) (fun _ => 7)).head? =
      some 5 ∧
    List.Chain' (· ≤ ·)
      (generate_spread_timestamps 3 5 7200 (fun _ => 1) (fun _ => 7)) ∧
    generate_spread_timestamps 1 5 7200 (fun _ => 1) (fun _ => 7) = [5] := by
  have h0 := C2_spread_timestamps 0 5 7200 (fun _ => 1) (fun _ => 7) (by norm_num)
  have h3 := C2_spread_timestamps 3 5 7200 (fun _ => 1) (fun _ => 7) (by norm_num)
  have h1 := C2_spread_timestamps 1 5 7200 (fun _ => 1) (fun _ => 7) (by norm_num)
  exact ⟨h0.1, h3.1, h3.2.1 (by norm_num), h3.2.2.1, h1.2.2.2.2 rfl⟩

theorem coversB_append {cs : List FileChunk} {x a : ℕ}
    (h : coversB cs x a = true) {c : FileChunk} {b : ℕ}
    (hs : c.start_line = a + 1) (he : c.end_line = b) (hab : a < b) :
    coversB (cs ++ [c]) x b = true := by
  induction cs generalizing x with
  | nil =>
    simp only [coversB, beq_iff_eq] at h
    subst h
    simp only [List.nil_append, coversB, Bool.and_eq_true, beq_iff_eq,
      decide_eq_true_eq]
    refine ⟨⟨hs, by omega⟩, ?_⟩
    simp [coversB, he]
  | cons d t ih =>
    simp only [coversB, Bool.and_eq_true, beq_iff_eq, decide_eq_true_eq] at h
    obtain ⟨⟨h1, h2⟩, h3⟩ := h
    simp only [List.cons_append, coversB, Bool.and_eq_true, beq_iff_eq,
      decide_eq_true_eq]
    exact ⟨⟨h1, h2⟩, ih h3⟩

theorem coversB_setHeadFullFile (cs : List FileChunk) (a b : ℕ) :
    coversB (setHeadFullFile cs) a b = coversB cs a b := by
  cases cs <;> simp [setHeadFullFile, coversB]

theorem coversB_setHeadDeps (deps : List Str) (cs : List FileChunk) (a b : ℕ) :
    coversB (setHeadDeps deps cs) a b = coversB cs a b := by
  cases cs <;> simp [setHeadDeps, coversB]

theorem sectionPush_sec_start (fp fname : Str) (lines : List Str)
    (ctype : ChunkType) (cname : Str) (i : ℕ) (st : ScanSt) :
    (sectionPush fp fname lines ctype cname i st).sec_start = st.sec_start :=
  rfl

theorem sectionPush_cov {fp fname : Str} {lines : List Str} {ctype : ChunkType}
    {cname : Str} {i : ℕ} {st : ScanSt}
    (hcov : coversB st.chunks 0 st.sec_start = true) (hlt : st.sec_start < i) :
    coversB (sectionPush fp fname lines ctype cname i st).chunks 0 i = true := by
  unfold sectionPush
  dsimp only
  exact coversB_append hcov (by simp [create_chunk])
    (by simp [create_chunk]; omega) hlt

theorem pyStep_inv (fp fname : Str) (lines : List Str) (n i : ℕ) (l : Str)
    (st : ScanSt) (hle : st.sec_start ≤ i) (hlt : st.sec_start < n) (hin : i < n)
    (hcov : coversB st.chunks 0 st.sec_start = true) :
    (pyStep fp fname lines i l st).sec_start ≤ i + 1 ∧
    (pyStep fp fname lines i l st).sec_start < n ∧
    coversB (pyStep fp fname lines i l st).chunks 0
      (pyStep fp fname lines i l st).sec_start = true := by
  unfold pyStep
  dsimp only
  split_ifs
  all_goals try dsimp only [sectionPush_sec_start] at *
  all_goals refine ⟨by omega, by omega, ?_⟩
  all_goals first
    | exact hcov
    | exact sectionPush_cov hcov (by (try dsimp only); omega)
    | (rw [show i = st.sec_start by omega]; exact hcov)
    | (exfalso; omega)

theorem rsStep_inv (fp fname : Str) (lines : List Str) (n i : ℕ) (l : Str)
    (st : ScanSt) (hle : st.sec_start ≤ i) (hlt : st.sec_start < n) (hin : i < n)
    (hcov : coversB st.chunks 0 st.sec_start = true) :
    (rsStep fp fname lines i l st).sec_start ≤ i + 1 ∧
    (rsStep fp fname lines i l st).sec_start < n ∧
    coversB (rsStep fp fname lines i l st).chunks 0
      (rsStep fp fname lines i l st).sec_start = true := by
  unfold rsStep
  dsimp only
  split_ifs
  all_goals try dsimp only [sectionPush_sec_start] at *
  all_goals refine ⟨by omega, by omega, ?_⟩
  all_goals first
    | exact hcov
    | exact sectionPush_cov hcov (by (try dsimp only); omega)
    | (rw [show i = st.sec_start by omega]; exact hcov)
    | (exfalso; omega)

theorem jsStep_inv (fp fname : Str) (lines : List Str) (n i : ℕ) (l : Str)
    (st : ScanSt) (hle : st.sec_start ≤ i) (hlt : st.sec_start < n) (hin : i < n)
    (hcov : coversB st.chunks 0 st.sec_start = true) :
    (jsStep fp fname lines i l st).sec_start ≤ i + 1 ∧
    (jsStep fp fname lines i l st).sec_start < n ∧
    coversB (jsStep fp fname lines i l st).chunks 0
      (jsStep fp fname lines i l st).sec_start = true := by
  unfold jsStep
  dsimp only
  split_ifs
  all_goals try dsimp only [sectionPush_sec_start] at *
  all_goals refine ⟨by omega, by omega, ?_⟩
  all_goals first
    | exact hcov
    | exact sectionPush_cov hcov (by (try dsimp only); omega)
    | (rw [show i = st.sec_start by omega]; exact hcov)
    | (exfalso; omega)

theorem goStep_inv (fp fname : Str) (lines : List Str) (n i : ℕ) (l : Str)
    (st : ScanSt) (hle : st.sec_start ≤ i) (hlt : st.sec_start < n) (hin : i < n)
    (hcov : coversB st.chunks 0 st.sec_start = true) :
    (goStep fp fname lines i l st).sec_start ≤ i + 1 ∧
    (goStep fp fname lines i l st).sec_start < n ∧
    coversB (goStep fp fname lines i l st).chunks 0
      (goStep fp fname lines i l st).sec_start = true := by
  unfold goStep
  dsimp only
  split_ifs
  all_goals try dsimp only [sectionPush_sec_start] at *
  all_goals refine ⟨by omega, by omega, ?_⟩
  all_goals first
    | exact hcov
    | exact sectionPush_cov hcov (by (try dsimp only); omega)
    | (rw [show i = st.sec_start by omega]; exact hcov)
    | (exfalso; omega)

theorem scanGo_inv (step : ℕ → Str → ScanSt → ScanSt) (n : ℕ)
    (hstep : ∀ (i : ℕ) (l : Str) (st : ScanSt), st.sec_start ≤ i →
      st.sec_start < n → i < n → coversB st.chunks 0 st.sec_start = true →
      ((step i l st).sec_start ≤ i + 1 ∧ (step i l st).sec_start < n ∧
        coversB (step i l st).chunks 0 (step i l st).sec_start = true)) :
    ∀ (ls : List Str) (i : ℕ) (st : ScanSt), i + ls.length = n →
      st.sec_start ≤ i → st.sec_start < n →
      coversB st.chunks 0 st.sec_start = true →
      ((scanGo step ls i st).sec_start < n ∧
        coversB (scanGo step ls i st).chunks 0
          (scanGo step ls i st).sec_start = true) := by
  intro ls
  induction ls with
  | nil =>
    intro i st _ _ hlt hcov
    exact ⟨hlt, hcov⟩
  | cons l t ih =>
    intro i st hn hle hlt hcov
    simp only [scanGo]
    have hi : i < n := by
      simp only [List.length_cons] at hn
      omega
    obtain ⟨a, b, c⟩ := hstep i l st hle hlt hi hcov
    apply ih (i + 1) (step i l st)
    · simp only [List.length_cons] at hn
      omega
    · exact a
    · exact b
    · exact c

theorem scanFinish_cov (fp fname : Str) (lines : List Str) (full : Str)
    (u : Bool) (st : ScanSt) (hlt : st.sec_start < lines.length)
    (hcov : coversB st.chunks 0 st.sec_start = true) :
    coversB (scanFinish fp fname lines full u st).1 0 lines.length = true := by
  unfold scanFinish
  rw [if_pos hlt]
  dsimp only
  split_ifs
  all_goals try simp only [coversB_setHeadDeps, coversB_setHeadFullFile]
  all_goals exact sectionPush_cov hcov hlt

theorem parse_python_cov (fp : Str) (lines : List Str) (full : Str) (cid : ℕ)
    (hn : 1 ≤ lines.length) :
    coversB (parse_python_file fp lines full cid).1 0 lines.length = true := by
  unfold parse_python_file
  dsimp only
  have hgo := scanGo_inv (pyStep fp (((splitChar '/' fp).getLast?).getD fp) lines)
    lines.length
    (fun i l st => pyStep_inv fp (((splitChar '/' fp).getLast?).getD fp) lines
      lines.length i l st)
    lines 0 (scanInit cid) (by simp) (by simp [scanInit])
    (by simp [scanInit]; omega) (by simp [scanInit, coversB])
  exact scanFinish_cov _ _ _ _ _ _ hgo.1 hgo.2

theorem parse_rust_cov (fp : Str) (lines : List Str) (full : Str) (cid : ℕ)
    (hn : 1 ≤ lines.length) :
    coversB (parse_rust_file fp lines full cid).1 0 lines.length = true := by
  unfold parse_rust_file
  dsimp only
  have hgo := scanGo_inv (rsStep fp (((splitChar '/' fp).getLast?).getD fp) lines)
    lines.length
    (fun i l st => rsStep_inv fp (((splitChar '/' fp).getLast?).getD fp) lines
      lines.length i l st)
    lines 0 (scanInit cid) (by simp) (by simp [scanInit])
    (by simp [scanInit]; omega) (by simp [scanInit, coversB])
  exact scanFinish_cov _ _ _ _ _ _ hgo.1 hgo.2

theorem parse_js_cov (fp : Str) (lines : List Str) (full : Str) (cid : ℕ)
    (hn : 1 ≤ lines.length) :
    coversB (parse_js_file fp lines full cid).1 0 lines.length = true := by
  unfold parse_js_file
  dsimp only
  have hgo := scanGo_inv (jsStep fp (((splitChar '/' fp).getLast?).getD fp) lines)
    lines.length
    (fun i l st => jsStep_inv fp (((splitChar '/' fp).getLast?).getD fp) lines
      lines.length i l st)
    lines 0 (scanInit cid) (by simp) (by simp [scanInit])
    (by simp [scanInit]; omega) (by simp [scanInit, coversB])
  exact scanFinish_cov _ _ _ _ _ _ hgo.1 hgo.2

theorem parse_go_cov (fp : Str) (lines : List Str) (full : Str) (cid : ℕ)
    (hn : 1 ≤ lines.length) :
    coversB (parse_go_file fp lines full cid).1 0 lines.length = true := by
  unfold parse_go_file
  dsimp only
  have hgo := scanGo_inv (goStep fp (((splitChar '/' fp).getLast?).getD fp) lines)
    lines.length
    (fun i l st => goStep_inv fp (((splitChar '/' fp).getLast?).getD fp) lines
      lines.length i l st)
    lines 0 (scanInit cid) (by simp) (by simp [scanInit])
    (by simp [scanInit]; omega) (by simp [scanInit, coversB])
  exact scanFinish_cov _ _ _ _ _ _ hgo.1 hgo.2

theorem genLoop_cov (fp fname : Str) (lines : List Str) :
    ∀ (k start cid : ℕ) (acc : List FileChunk),
      lines.length - start ≤ k → start ≤ lines.length →
      coversB acc 0 start = true →
      coversB (genLoop fp fname lines start cid acc).1 0 lines.length = true := by
  intro k
  induction k with
  | zero =>
    intro start cid acc h0 hle hcov
    rw [genLoop.eq_def, dif_neg (by omega)]
    have : start = lines.length := by omega
    subst this
    exact hcov
  | succ k ih =>
    intro start cid acc h0 hle hcov
    by_cases hstart : start < lines.length
    · rw [genLoop.eq_def, dif_pos hstart]
      dsimp only
      apply ih
      · show lines.length - (min (start + 50) lines.length - 1 + 1) ≤ k
        omega
      · show min (start + 50) lines.length - 1 + 1 ≤ lines.length
        omega
      · apply coversB_append hcov rfl rfl
        show start < min (start + 50) lines.length - 1 + 1
        omega
    · rw [genLoop.eq_def, dif_neg hstart]
      have : start = lines.length := by omega
      subst this
      exact hcov

theorem parse_generic_cov (fp : Str) (lines : List Str) (full : Str) (cid : ℕ)
    (hn : 1 ≤ lines.length) :
    coversB (parse_generic_file fp lines full cid).1 0 lines.length = true := by
  unfold parse_generic_file
  exact genLoop_cov fp _ lines lines.length 0 cid [] (by omega) (by omega)
    (by simp [coversB])

theorem splitP_ne_nil (p : Char → Bool) (s : Str) : splitP p s ≠ [] := by
  induction s with
  | nil => simp [splitP]
  | cons c cs ih =>
    unfold splitP
    split_ifs
    · simp
    · cases h : splitP p cs with
      | nil => simp
      | cons hh tt => simp

theorem splitP_singleton (p : Char → Bool) :
    ∀ (s x : Str), splitP p s = [x] → x = s := by
  intro s
  induction s with
  | nil =>
    intro x h
    simp only [splitP, List.cons.injEq, and_true] at h
    exact h.symm
  | cons c cs ih =>
    intro x h
    unfold splitP at h
    split_ifs at h with hp
    · simp only [List.cons.injEq] at h
      exact absurd h.2 (splitP_ne_nil p cs)
    · cases hcs : splitP p cs with
      | nil => exact absurd hcs (splitP_ne_nil p cs)
      | cons hh tt =>
        rw [hcs] at h
        simp only [List.cons.injEq] at h
        obtain ⟨hx, htt⟩ := h
        subst htt
        have := ih hh hcs
        rw [← hx, this]

theorem rustLines_pos {s : Str} (h : s ≠ []) : 1 ≤ (rustLines s).length := by
  unfold rustLines
  rw [if_neg h]
  dsimp only
  split_ifs with hl
  · rw [List.length_map]
    cases hp : splitChar '\n' s with
    | nil => exact absurd hp (splitP_ne_nil _ _)
    | cons a t =>
      cases t with
      | nil =>
        have ha : a = s := splitP_singleton _ s a hp
        rw [hp] at hl
        simp only [List.getLast?_singleton, Option.some_inj] at hl
        rw [hl] at ha
        exact absurd ha.symm h
      | cons b t2 =>
        rw [List.length_dropLast]
        simp only [List.length_cons]
        omega
  · rw [List.length_map]
    cases hp : splitChar '\n' s with
    | nil => exact absurd hp (splitP_ne_nil _ _)
    | cons a t => simp [hp]

/-- C1: for every non-empty file content (of `L ≥ 1` lines) and every file
path (so every language scanner and the generic fallback), the chunks
returned by `parse_single_file_into_chunks` partition the 1-based line range
`[1, L]` in return order: the first chunk starts at line 1, consecutive
chunks are contiguous with no gap or overlap
(`next.start_line = prev.end_line + 1`, so `start_line` strictly increases),
and the last chunk ends at line `L` (see `coversB`). -/
theorem C1_chunk_partition :
    ∀ (file_path content : Str) (chunk_id : ℕ), content ≠ [] →
      coversB (parse_single_file_into_chunks file_path content chunk_id).1 0
        (rustLines content).length = true := by
  intro fp content cid hne
  have hlen := rustLines_pos hne
  unfold parse_single_file_into_chunks
  dsimp only
  split_ifs with h50 hpy hrs hjs hgo
  · simp [coversB, hlen]
  · exact parse_python_cov fp _ content cid hlen
  · exact parse_rust_cov fp _ content cid hlen
  · exact parse_js_cov fp _ content cid hlen
  · exact parse_go_cov fp _ content cid hlen
  · exact parse_generic_cov fp _ content cid hlen

theorem C1_chunk_partition_witness :
    ("x".data ≠ ([] : Str)) ∧
    coversB (parse_single_file_into_chunks "a.py".data "x".data 0).1 0
      (rustLines "x".data).length = true :=
  ⟨by decide, C1_chunk_partition "a.py".data "x".data 0 (by decide)⟩

theorem lockFilePid_acquire (c : Str) (running : ℕ → Bool) (myPid : ℕ) :
    LockGuard_acquire (some c) running myPid =
      match lockFilePid c with
      | some pid =>
        if running pid then Except.error lockConflictMsg
        else Except.ok (lockFileContent myPid)
      | none => Except.ok (lockFileContent myPid) := by
  simp only [LockGuard_acquire, lockFilePid]
  rcases (rustLines c).head? with _ | l <;> rfl

/-- C5: a lock file whose first line parses as the PID of a live process
makes `LockGuard::acquire` fail (no second caller can take the lock), and a
recorded PID that is not running is treated as stale: the lock file is
reclaimed and the caller acquires the lock, the new lock file holding the
caller's process id. -/
theorem C5_lock_live_and_stale :
    (∀ (c : Str) (running : ℕ → Bool) (myPid pid : ℕ),
      lockFilePid c = some pid → running pid = true →
      LockGuard_acquire (some c) running myPid = Except.error lockConflictMsg) ∧
    (∀ (c : Str) (running : ℕ → Bool) (myPid pid : ℕ),
      lockFilePid c = some pid → running pid = false →
      LockGuard_acquire (some c) running myPid =
        Except.ok (lockFileContent myPid)) := by
  constructor
  · intro c running myPid pid h hr
    rw [lockFilePid_acquire, h]
    simp [hr]
  · intro c running myPid pid h hr
    rw [lockFilePid_acquire, h]
    simp [hr]

theorem C5_lock_live_and_stale_witness :
    (lockFilePid "123\n".data = some 123 ∧
      LockGuard_acquire (some "123\n".data) (fun _ => true) 77 =
        Except.error lockConflictMsg) ∧
    (lockFilePid "123\n".data = some 123 ∧
      LockGuard_acquire (some "123\n".data) (fun _ => false) 77 =
        Except.ok (lockFileContent 77)) :=
  ⟨⟨by decide, C5_lock_live_and_stale.1 "123\n".data (fun _ => true) 77 123
      (by decide) rfl⟩,
    ⟨by decide, C5_lock_live_and_stale.2 "123\n".data (fun _ => false) 77 123
      (by decide) rfl⟩⟩

/-- C9: a lock file whose first line does not parse as an unsigned integer
PID (empty file, garbage content, or the empty string an unreadable file
degrades to) is treated as stale: `acquire` succeeds and writes a fresh
lock file with the caller's process id, regardless of the liveness probe. -/
theorem C9_lock_garbage_reclaimed :
    ∀ (c : Str) (running : ℕ → Bool) (myPid : ℕ),
      lockFilePid c = none →
      LockGuard_acquire (some c) running myPid =
        Except.ok (lockFileContent myPid) := by
  intro c running myPid h
  rw [lockFilePid_acquire, h]

theorem C9_lock_garbage_reclaimed_witness :
    (lockFilePid "garbage".data = none ∧
      LockGuard_acquire (some "garbage".data) (fun _ => true) 77 =
        Except.ok (lockFileContent 77)) ∧
    (lockFilePid [] = none ∧
      LockGuard_acquire (some []) (fun _ => true) 77 =
        Except.ok (lockFileContent 77)) :=
  ⟨⟨by decide, C9_lock_garbage_reclaimed "garbage".data (fun _ => true) 77
      (by decide)⟩,
    ⟨by decide, C9_lock_garbage_reclaimed [] (fun _ => true) 77 (by decide)⟩⟩

/-- C7 fails as stated: the manifests rank *above* `.gitignore`
(`requirements.txt` gets rank 2, `.gitignore` rank 1), so a manifest's rank
is not strictly lower than a config file's. -/
theorem C7_counterexample :
    ¬ (file_priority "requirements.txt".data < file_priority ".gitignore".data) := by
  decide

/-- C7 (amended): every build/package manifest filename gets rank 2 and the
language-agnostic config files `.gitignore` / `.env.example` get rank 1 —
the *config files* are ranked strictly below the manifests (the tier order
of the claim is reversed) — and any path matching no pattern of the table
gets the mid-tier default rank 50. -/
theorem C7_priority_table :
    (file_priority "requirements.txt".data = 2 ∧
      file_priority "package.json".data = 2 ∧
      file_priority "Cargo.toml".data = 2 ∧
      file_priority "go.mod".data = 2) ∧
    (file_priority ".gitignore".data = 1 ∧
      file_priority ".env.example".data = 1 ∧
      file_priority ".gitignore".data < file_priority "requirements.txt".data) ∧
    (∀ p : Str, matchesKnown p = false → file_priority p = 50) := by
  refine ⟨⟨by decide, by decide, by decide, by decide⟩,
    ⟨by decide, by decide, by decide⟩, ?_⟩
  intro p h
  simp only [matchesKnown, Bool.or_eq_false_iff, beq_eq_false_iff_ne, ne_eq] at h
  simp_all [file_priority]

theorem C7_priority_table_witness :
    matchesKnown "src/widget.xyz".data = false ∧
      file_priority "src/widget.xyz".data = 50 :=
  ⟨by decide, C7_priority_table.2.2 "src/widget.xyz".data (by decide)⟩

theorem foldl_pick_sel (f : ℕ × ℕ → ℕ → ℕ × ℕ)
    (hf : ∀ acc i, (f acc i).2 = i ∨ (f acc i).2 = acc.2)
    (P : ℕ → Prop) :
    ∀ (l : List ℕ) (acc : ℕ × ℕ), P acc.2 → (∀ i ∈ l, P i) →
      P ((l.foldl f acc).2) := by
  intro l
  induction l with
  | nil => intro acc h _; simpa using h
  | cons a t ih =>
    intro acc h hl
    simp only [List.foldl_cons]
    apply ih
    · rcases hf acc a with h' | h' <;> rw [h']
      · exact hl a (by simp)
      · exact h
    · intro i hi; exact hl i (by simp [hi])

theorem findMergeIdx_lt {groups : List SplitGroup} (h2 : 2 ≤ groups.length) :
    findMergeIdx groups + 1 < groups.length := by
  unfold findMergeIdx
  refine foldl_pick_sel _ ?_ (fun idx => idx + 1 < groups.length) _ _ (by omega) ?_
  · intro acc i
    dsimp only
    split
    · exact Or.inl rfl
    · exact Or.inr rfl
  · intro i hi
    have := List.mem_range.mp hi
    omega

theorem removeMergeAt_isSome {groups : List SplitGroup} {idx : ℕ}
    (h : idx + 1 < groups.length) :
    ∃ g2, removeMergeAt groups idx = some g2 := by
  unfold removeMergeAt
  rw [List.get?_eq_get (show idx < groups.length by omega), List.get?_eq_get h]
  exact ⟨_, rfl⟩

theorem merge_unfold_none {groups : List SplitGroup} {target : ℕ}
    (hgt : ¬ groups.length ≤ target)
    (h0 : removeMergeAt groups (findMergeIdx groups) = none) :
    merge_groups_to_target groups target = none := by
  rw [merge_groups_to_target.eq_def, if_neg hgt]
  split
  · rfl
  · next g2 heq =>
    rw [h0] at heq
    cases heq

theorem merge_unfold_step {groups g2 : List SplitGroup} {target : ℕ}
    (hgt : ¬ groups.length ≤ target)
    (h0 : removeMergeAt groups (findMergeIdx groups) = some g2) :
    merge_groups_to_target groups target = merge_groups_to_target g2 target := by
  rw [merge_groups_to_target.eq_def, if_neg hgt]
  split
  · next heq =>
    rw [h0] at heq
    cases heq
  · next g3 heq =>
    rw [h0] at heq
    injection heq with hh
    rw [hh]

/-- C6 fails as stated at target 0: with one group and a requested target of
0 the merge loop's inner `remove(merge_idx + 1)` indexes out of bounds (a
panic, modelled as `none`), so no 0-group result is produced. -/
theorem C6_counterexample :
    merge_groups_to_target [⟨0, ["a".data], "d".data, "h".data, 5⟩] 0 = none := by
  have h0 : removeMergeAt [⟨0, ["a".data], "d".data, "h".data, 5⟩]
      (findMergeIdx [⟨0, ["a".data], "d".data, "h".data, 5⟩]) = none := by decide
  exact merge_unfold_none (by decide) h0

/-- C6 (amended): when the classifier returns more groups than the requested
target and the target is at least 1, merge-to-target (repeatedly merging the
smallest adjacent pair) yields exactly `target` groups; when the group count
is at most the target the groups are returned unchanged; for target 0 and a
non-empty group list the loop panics instead (see the counterexample). -/
theorem C6_merge_to_target :
    ∀ (target : ℕ) (groups : List SplitGroup),
      (groups.length ≤ target →
        merge_groups_to_target groups target = some groups) ∧
      (1 ≤ target → target < groups.length →
        ∃ r, merge_groups_to_target groups target = some r ∧
          r.length = target) := by
  intro target
  suffices h : ∀ (n : ℕ) (groups : List SplitGroup), groups.length ≤ n →
      (groups.length ≤ target →
        merge_groups_to_target groups target = some groups) ∧
      (1 ≤ target → target < groups.length →
        ∃ r, merge_groups_to_target groups target = some r ∧
          r.length = target) by
    intro groups
    exact h groups.length groups le_rfl
  intro n
  induction n with
  | zero =>
    intro groups hg
    constructor
    · intro hle
      rw [merge_groups_to_target.eq_def, if_pos hle]
    · intro _ htlt
      omega
  | succ n ih =>
    intro groups hg
    constructor
    · intro hle
      rw [merge_groups_to_target.eq_def, if_pos hle]
    · intro ht1 htlt
      have hlen2 : 2 ≤ groups.length := by omega
      obtain ⟨g2, hg2⟩ := removeMergeAt_isSome (findMergeIdx_lt hlen2)
      have hlen : g2.length = groups.length - 1 := (removeMergeAt_length hg2).1
      rw [merge_unfold_step (by omega) hg2]
      rcases Nat.lt_or_ge target g2.length with hcase | hcase
      · exact (ih g2 (by omega)).2 ht1 hcase
      · exact ⟨g2, (ih g2 (by omega)).1 hcase, by omega⟩

theorem C6_merge_to_target_witness :
    (merge_groups_to_target
        [⟨0, [], [], [], 5⟩, ⟨1, [], [], [], 3⟩] 2 =
      some [⟨0, [], [], [], 5⟩, ⟨1, [], [], [], 3⟩]) ∧
    (∃ r, merge_groups_to_target
        [⟨0, [], [], [], 5⟩, ⟨1, [], [], [], 3⟩, ⟨2, [], [], [], 4⟩] 2 =
      some r ∧ r.length = 2) :=
  ⟨(C6_merge_to_target 2 [⟨0, [], [], [], 5⟩, ⟨1, [], [], [], 3⟩]).1
      (by decide),
    (C6_merge_to_target 2
        [⟨0, [], [], [], 5⟩, ⟨1, [], [], [], 3⟩, ⟨2, [], [], [], 4⟩]).2
      (by decide) (by decide)⟩

theorem sendLoop_step (o : ℕ → ApiOutcome) (attempt delay : ℕ)
    (last : Option ApiErr) (sleeps : List ℕ) (h : attempt ≤ MAX_RETRIES) :
    sendLoop o attempt delay last sleeps =
      (let sleeps' := if attempt > 0 then sleeps ++ [delay] else sleeps
       let delay' := if attempt > 0 then min (delay * 2) MAX_DELAY_MS else delay
       match o attempt with
       | .netErr e => sendLoop o (attempt + 1) delay' (some (.network e)) sleeps'
       | .httpResp status body =>
         if 200 ≤ status ∧ status < 300 then (Except.ok body, sleeps')
         else if status = 429 ∨ 500 ≤ status then
           sendLoop o (attempt + 1) delay' (some (.api status body)) sleeps'
         else (Except.error (.fatalStatus status body), sleeps')) := by
  rw [sendLoop.eq_def, dif_pos h]

theorem sendLoop_exhaust (o : ℕ → ApiOutcome) (delay : ℕ)
    (last : Option ApiErr) (sleeps : List ℕ) :
    sendLoop o 4 delay last sleeps =
      (Except.error (.exhausted 4 last), sleeps) := by
  rw [sendLoop.eq_def, dif_neg (by norm_num [MAX_RETRIES])]
  norm_num [MAX_RETRIES]

theorem sendLoop_retry_step (o : ℕ → ApiOutcome) (k delay : ℕ)
    (last : Option ApiErr) (sleeps : List ℕ) (hk : k ≤ MAX_RETRIES)
    (hr : retryable (o k)) :
    sendLoop o k delay last sleeps =
      sendLoop o (k + 1)
        (if k > 0 then min (delay * 2) MAX_DELAY_MS else delay)
        (some (errOf (o k)))
        (if k > 0 then sleeps ++ [delay] else sleeps) := by
  rw [sendLoop_step o k delay last sleeps hk]
  cases ho : o k with
  | netErr e => simp [errOf]
  | httpResp s b =>
    rw [ho] at hr
    simp only [retryable] at hr
    have h1 : ¬ (200 ≤ s ∧ s < 300) := by rcases hr with h | h <;> omega
    simp [errOf, h1, hr]

/-- C3: `send_message` retries a network error, HTTP 429, and any HTTP
status at least 500, sleeping between attempts with a doubling backoff that
starts at 1000 ms (the cap of 30000 ms is not reached within the 4-attempt
ceiling); after the ceiling it fails with the last observed error; any other
HTTP error status fails immediately with zero backoff sleeps; and a call
failing with HTTP 429 twice then succeeding returns the success payload
after exactly two backoff sleeps. -/
theorem C3_send_message_retry :
    (∀ (o : ℕ → ApiOutcome) (b0 b1 p : Str),
      o 0 = .httpResp 429 b0 → o 1 = .httpResp 429 b1 → o 2 = .httpResp 200 p →
      send_message o = (Except.ok p, [1000, 2000])) ∧
    (∀ (o : ℕ → ApiOutcome) (s : ℕ) (b : Str),
      o 0 = .httpResp s b → ¬ (200 ≤ s ∧ s < 300) → s ≠ 429 → s < 500 →
      send_message o = (Except.error (.fatalStatus s b), [])) ∧
    (∀ (o : ℕ → ApiOutcome) (e p : Str),
      o 0 = .netErr e → o 1 = .httpResp 200 p →
      send_message o = (Except.ok p, [1000])) ∧
    (∀ o : ℕ → ApiOutcome,
      (∀ k, k ≤ MAX_RETRIES → retryable (o k)) →
      send_message o =
        (Except.error
          (.exhausted (MAX_RETRIES + 1) (some (errOf (o MAX_RETRIES)))),
          [1000, 2000, 4000])) := by
  refine ⟨?_, ?_, ?_, ?_⟩
  · intro o b0 b1 p h0 h1 h2
    rw [send_message, sendLoop_step o 0 _ _ _ (by norm_num [MAX_RETRIES]), h0]
    norm_num [BASE_DELAY_MS, MAX_DELAY_MS]
    rw [sendLoop_step o 1 _ _ _ (by norm_num [MAX_RETRIES]), h1]
    norm_num [MAX_DELAY_MS]
    rw [sendLoop_step o 2 _ _ _ (by norm_num [MAX_RETRIES]), h2]
    norm_num [MAX_DELAY_MS]
  · intro o s b h0 hsucc hne hlt
    rw [send_message, sendLoop_step o 0 _ _ _ (by norm_num [MAX_RETRIES]), h0]
    simp only [gt_iff_lt, lt_irrefl, if_false, BASE_DELAY_MS]
    rw [if_neg hsucc, if_neg (by rintro (h | h); exact hne h; omega)]
  · intro o e p h0 h1
    rw [send_message, sendLoop_step o 0 _ _ _ (by norm_num [MAX_RETRIES]), h0]
    norm_num [BASE_DELAY_MS, MAX_DELAY_MS]
    rw [sendLoop_step o 1 _ _ _ (by norm_num [MAX_RETRIES]), h1]
    norm_num [MAX_DELAY_MS]
  · intro o hr
    rw [send_message,
      sendLoop_retry_step o 0 _ _ _ (by norm_num [MAX_RETRIES])
        (hr 0 (by norm_num [MAX_RETRIES]))]
    norm_num [BASE_DELAY_MS, MAX_DELAY_MS]
    rw [sendLoop_retry_step o 1 _ _ _ (by norm_num [MAX_RETRIES])
        (hr 1 (by norm_num [MAX_RETRIES]))]
    norm_num [MAX_DELAY_MS]
    rw [sendLoop_retry_step o 2 _ _ _ (by norm_num [MAX_RETRIES])
        (hr 2 (by norm_num [MAX_RETRIES]))]
    norm_num [MAX_DELAY_MS]
    rw [sendLoop_retry_step o 3 _ _ _ (by norm_num [MAX_RETRIES])
        (hr 3 (by norm_num [MAX_RETRIES]))]
    norm_num [MAX_RETRIES, MAX_DELAY_MS]
    exact sendLoop_exhaust o _ _ _

theorem C3_send_message_retry_witness :
    (send_message
        (fun k => if k < 2 then .httpResp 429 [] else .httpResp 200 ['o', 'k']) =
      (Except.ok ['o', 'k'], [1000, 2000])) ∧
    (send_message (fun _ => .httpResp 401 ['u']) =
      (Except.error (.fatalStatus 401 ['u']), [])) ∧
    (send_message
        (fun k => if k = 0 then .netErr ['e'] else .httpResp 200 ['p']) =
      (Except.ok ['p'], [1000])) ∧
    (send_message (fun _ => .httpResp 503 ['b']) =
      (Except.error (.exhausted 4 (some (.api 503 ['b']))), [1000, 2000, 4000])) :=
  ⟨C3_send_message_retry.1
      (fun k => if k < 2 then .httpResp 429 [] else .httpResp 200 ['o', 'k'])
      [] [] ['o', 'k'] rfl rfl rfl,
    C3_send_message_retry.2.1 (fun _ => .httpResp 401 ['u']) 401 ['u'] rfl
      (by omega) (by omega) (by omega),
    C3_send_message_retry.2.2.1
      (fun k => if k = 0 then .netErr ['e'] else .httpResp 200 ['p'])
      ['e'] ['p'] rfl rfl,
    C3_send_message_retry.2.2.2 (fun _ => .httpResp 503 ['b'])
      (fun k _ => by simp [retryable])⟩

end GitBahn
